import Mathlib

/-!
Sparse matrix (`Sparse_matrix.cpp`): shallow embedding and verification.

The C++ program stores a sparse matrix as a doubly linked list of rows
(`rowNode`), each row holding a doubly linked list of column entries
(`ColumnNode`).  The embedding represents every linked list by the chain
of nodes reached from `head` through `next`.  The `prev` pointers and the
`tail` pointer are written but never read by any operation, so they carry
no observable state and are left out.  The `length` counters are kept,
because `SparseMatrix::get_value` reads one of them.

Conventions.
* The C++ `int` is a 32 bit two's complement integer.  Values are `Int`;
  the only arithmetic on stored values is `+=` in `ColumnLinkedList::add`,
  embedded as `int_add` (the exact sum when it fits, wrapped otherwise;
  C++ leaves the overflowing case undefined).  The `length` counters and
  the loop counters only ever count nodes or columns and are kept exact.
* `assert` is embedded as failure: a function that asserts returns
  `Option`, and `none` is the aborted run.
* The printing functions write integers to `cout`; the embedding returns
  the printed integers, one list for each printed line of integers (the
  blank line that ends `print_matrix` and `print_matrix_nonzero` is left
  out).  Their `while` loops run on a counter compared with `!=`, so they
  are embedded with a fuel argument: `none` means the loop was still
  running when the fuel ran out.
* A member call `a.add(b)` is embedded as a function of both objects that
  returns the new state of `a`; `b` is only read by the source.  Calling
  `a.add(a)` on one object gives the same result as adding an equal copy
  on sorted chains, since every node is read before it alone is updated.
-/

namespace SparseMatrixCpp

/-! ## Machine integers -/

/-- Smallest value of the C++ type `int`. -/
def INT_MIN : Int := -2147483648

/-- Largest value of the C++ type `int`. -/
def INT_MAX : Int := 2147483647

/-- The integer is a value of the C++ type `int`. -/
def is_int (x : Int) : Prop := INT_MIN ≤ x ∧ x ≤ INT_MAX

instance (x : Int) : Decidable (is_int x) := by
  unfold is_int
  exact inferInstance

/-- Reduction of an exact integer to the 32 bit two's complement range. -/
def wrap_int (x : Int) : Int := (x + 2147483648) % 4294967296 - 2147483648

/-- The C++ `+` on `int` operands (as used by `+=`). -/
def int_add (a b : Int) : Int := wrap_int (a + b)

/-! ## ColumnNode and ColumnLinkedList -/

/-- Node of a row: `struct ColumnNode` without its link pointers. -/
structure ColumnNode where
  data : Int
  columns : Int
deriving DecidableEq

/-- One sparse row: `class ColumnLinkedList`.  The field `head` is the chain
of nodes from `head` along `next`. -/
structure ColumnLinkedList where
  head : List ColumnNode
  length : Int
  columns : Int
deriving DecidableEq

/-- Constructor `ColumnLinkedList(int columns)`; the default constructor is
`construct 0`. -/
def ColumnLinkedList.construct (columns : Int) : ColumnLinkedList :=
  { head := [], length := 0, columns := columns }

/-- Method `ColumnLinkedList::insert_front`. -/
def ColumnLinkedList.insert_front (l : ColumnLinkedList) (node : ColumnNode) :
    ColumnLinkedList :=
  { l with head := node :: l.head, length := l.length + 1 }

/-- The `for` loop of `ColumnLinkedList::insert_sorted` together with the
linking that follows it, run on the chain `curr->next`.  The result is the new
chain after `curr` and whether `node` was linked in (`false`: an existing
node was overwritten and the function returned early). -/
def ColumnLinkedList.insert_after (node : ColumnNode) :
    List ColumnNode → List ColumnNode × Bool
  | [] => ([node], true)
  | n :: rest =>
    if n.columns = node.columns then
      ({ n with data := node.data } :: rest, false)
    else if n.columns > node.columns then
      (node :: n :: rest, true)
    else
      ((n :: (ColumnLinkedList.insert_after node rest).1),
        (ColumnLinkedList.insert_after node rest).2)

/-- Method `ColumnLinkedList::insert_sorted`. -/
def ColumnLinkedList.insert_sorted (l : ColumnLinkedList) (node : ColumnNode) :
    ColumnLinkedList :=
  match l.head with
  | [] => l.insert_front node
  | h :: t =>
    if h.columns > node.columns then
      l.insert_front node
    else if h.columns = node.columns then
      { l with head := { h with data := node.data } :: t }
    else
      { l with
        head := h :: (ColumnLinkedList.insert_after node t).1
        length :=
          if (ColumnLinkedList.insert_after node t).2 then l.length + 1 else l.length }

/-- Method `ColumnLinkedList::set_value`. -/
def ColumnLinkedList.set_value (l : ColumnLinkedList) (data column : Int) :
    ColumnLinkedList :=
  l.insert_sorted { data := data, columns := column }

/-- The `while` loop of `ColumnLinkedList::get_value`. -/
def ColumnLinkedList.find_column (column : Int) : List ColumnNode → Int
  | [] => 0
  | n :: rest =>
    if n.columns = column then n.data else ColumnLinkedList.find_column column rest

/-- Method `ColumnLinkedList::get_value`; `none` is the failed
`assert(column < columns)`. -/
def ColumnLinkedList.get_value (l : ColumnLinkedList) (column : Int) : Option Int :=
  if column < l.columns then some (ColumnLinkedList.find_column column l.head) else none

/-- The `while (count != columns)` loop of `ColumnLinkedList::print_array`. -/
def ColumnLinkedList.print_array_loop (columns : Int) :
    Nat → Int → List ColumnNode → Option (List Int)
  | fuel, count, curr =>
    if count = columns then some []
    else
      match fuel with
      | 0 => none
      | fuel + 1 =>
        match curr with
        | n :: rest =>
          if n.columns = count then
            (ColumnLinkedList.print_array_loop columns fuel (count + 1) rest).map
              (fun out => n.data :: out)
          else
            (ColumnLinkedList.print_array_loop columns fuel (count + 1) curr).map
              (fun out => 0 :: out)
        | [] =>
          (ColumnLinkedList.print_array_loop columns fuel (count + 1) curr).map
            (fun out => 0 :: out)

/-- Method `ColumnLinkedList::print_array`: the integers of the printed line. -/
def ColumnLinkedList.print_array (l : ColumnLinkedList) (fuel : Nat) : Option (List Int) :=
  ColumnLinkedList.print_array_loop l.columns fuel 0 l.head

/-- Method `ColumnLinkedList::print_array_nonzero`: the integers of the printed
line (the `data` of every node, in chain order). -/
def ColumnLinkedList.print_array_nonzero (l : ColumnLinkedList) : List Int :=
  l.head.map (fun n => n.data)

/-- The inner `while (curr2)` loop of `ColumnLinkedList::add`: adds
`node.data` to every node of the chain with the column of `node`; the flag is
`existed`. -/
def ColumnLinkedList.add_existing (node : ColumnNode) :
    List ColumnNode → List ColumnNode × Bool
  | [] => ([], false)
  | n :: rest =>
    if n.columns = node.columns then
      ({ n with data := int_add n.data node.data } ::
        (ColumnLinkedList.add_existing node rest).1, true)
    else
      (n :: (ColumnLinkedList.add_existing node rest).1,
        (ColumnLinkedList.add_existing node rest).2)

/-- One round of the outer `while (curr)` loop of `ColumnLinkedList::add`, for
the node `curr` of the other row. -/
def ColumnLinkedList.add_node (l : ColumnLinkedList) (curr : ColumnNode) :
    ColumnLinkedList :=
  if (ColumnLinkedList.add_existing curr l.head).2 then
    { l with head := (ColumnLinkedList.add_existing curr l.head).1 }
  else
    l.insert_sorted { data := curr.data, columns := curr.columns }

/-- Method `ColumnLinkedList::add`: the new state of the receiver. -/
def ColumnLinkedList.add (l other : ColumnLinkedList) : ColumnLinkedList :=
  other.head.foldl ColumnLinkedList.add_node l

/-! ## rowNode and SparseMatrix -/

/-- Node of the matrix: `struct rowNode` without its link pointers. -/
structure rowNode where
  row : Int
  list : ColumnLinkedList
deriving DecidableEq

/-- Constructor `rowNode(int row, int columns)`. -/
def rowNode.construct (row columns : Int) : rowNode :=
  { row := row, list := ColumnLinkedList.construct columns }

/-- The matrix: `class SparseMatrix`.  The field `head` is the chain of row
nodes from `head` along `next`. -/
structure SparseMatrix where
  head : List rowNode
  length : Int
  rows : Int
  columns : Int
deriving DecidableEq

/-- Constructor `SparseMatrix(int rows, int columns)`. -/
def SparseMatrix.construct (rows columns : Int) : SparseMatrix :=
  { head := [], length := 0, rows := rows, columns := columns }

/-- Method `SparseMatrix::insert_front`. -/
def SparseMatrix.insert_front (m : SparseMatrix) (node : rowNode) (data column : Int) :
    SparseMatrix :=
  { m with
    head := { node with list := node.list.set_value data column } :: m.head
    length := m.length + 1 }

/-- The `for` loop of `SparseMatrix::insert_sorted` together with the linking
that follows it, run on the chain `curr->next`. -/
def SparseMatrix.insert_after (data : Int) (node : rowNode) (column : Int) :
    List rowNode → List rowNode × Bool
  | [] => ([{ node with list := node.list.set_value data column }], true)
  | n :: rest =>
    if n.row = node.row then
      ({ n with list := n.list.set_value data column } :: rest, false)
    else if n.row > node.row then
      ({ node with list := node.list.set_value data column } :: n :: rest, true)
    else
      ((n :: (SparseMatrix.insert_after data node column rest).1),
        (SparseMatrix.insert_after data node column rest).2)

/-- Method `SparseMatrix::insert_sorted`. -/
def SparseMatrix.insert_sorted (m : SparseMatrix) (data : Int) (node : rowNode)
    (column : Int) : SparseMatrix :=
  match m.head with
  | [] => m.insert_front node data column
  | h :: t =>
    if h.row > node.row then
      m.insert_front node data column
    else if h.row = node.row then
      { m with head := { h with list := h.list.set_value data column } :: t }
    else
      { m with
        head := h :: (SparseMatrix.insert_after data node column t).1
        length :=
          if (SparseMatrix.insert_after data node column t).2 then m.length + 1
          else m.length }

/-- Method `SparseMatrix::set_value`. -/
def SparseMatrix.set_value (m : SparseMatrix) (data row column : Int) : SparseMatrix :=
  m.insert_sorted data (rowNode.construct row m.columns) column

/-- The `while` loop of `SparseMatrix::get_value`. -/
def SparseMatrix.find_row (row column : Int) : List rowNode → Option Int
  | [] => some 0
  | n :: rest =>
    if n.row = row then n.list.get_value column
    else SparseMatrix.find_row row column rest

/-- Method `SparseMatrix::get_value`; `none` is a failed assertion, either
`assert(row < length)` or the one of the row. -/
def SparseMatrix.get_value (m : SparseMatrix) (row column : Int) : Option Int :=
  if row < m.length then SparseMatrix.find_row row column m.head else none

/-- The loop `while (cnt++ != columns)` of `SparseMatrix::print_matrix` that
prints a row of zeros. -/
def SparseMatrix.print_zeros_loop (columns : Int) : Nat → Int → Option (List Int)
  | fuel, cnt =>
    if cnt = columns then some []
    else
      match fuel with
      | 0 => none
      | fuel + 1 =>
        (SparseMatrix.print_zeros_loop columns fuel (cnt + 1)).map (fun out => 0 :: out)

/-- The `while (count != rows)` loop of `SparseMatrix::print_matrix`.  Every
loop started inside gets the budget `inner`. -/
def SparseMatrix.print_matrix_loop (rows columns : Int) (inner : Nat) :
    Nat → Int → List rowNode → Option (List (List Int))
  | fuel, count, curr =>
    if count = rows then some []
    else
      match fuel with
      | 0 => none
      | fuel + 1 =>
        match curr with
        | n :: rest =>
          if n.row = count then
            (n.list.print_array inner).bind (fun line =>
              (SparseMatrix.print_matrix_loop rows columns inner fuel (count + 1) rest).map
                (fun out => line :: out))
          else
            (SparseMatrix.print_zeros_loop columns inner 0).bind (fun line =>
              (SparseMatrix.print_matrix_loop rows columns inner fuel (count + 1) curr).map
                (fun out => line :: out))
        | [] =>
          (SparseMatrix.print_zeros_loop columns inner 0).bind (fun line =>
            (SparseMatrix.print_matrix_loop rows columns inner fuel (count + 1) curr).map
              (fun out => line :: out))

/-- Method `SparseMatrix::print_matrix`: the printed lines, each as its list of
integers.  Every loop of the call may run `fuel` rounds. -/
def SparseMatrix.print_matrix (m : SparseMatrix) (fuel : Nat) : Option (List (List Int)) :=
  SparseMatrix.print_matrix_loop m.rows m.columns fuel fuel 0 m.head

/-- Method `SparseMatrix::print_matrix_nonzero`: the printed lines. -/
def SparseMatrix.print_matrix_nonzero (m : SparseMatrix) : List (List Int) :=
  m.head.map (fun n => n.list.print_array_nonzero)

/-- The inner `while (curr2)` loop of `SparseMatrix::add`: adds the row `curr`
of the other matrix into every row node with the same index; the flag is
`existed`. -/
def SparseMatrix.add_existing (curr : rowNode) : List rowNode → List rowNode × Bool
  | [] => ([], false)
  | n :: rest =>
    if n.row = curr.row then
      ({ n with list := n.list.add curr.list } ::
        (SparseMatrix.add_existing curr rest).1, true)
    else
      (n :: (SparseMatrix.add_existing curr rest).1,
        (SparseMatrix.add_existing curr rest).2)

/-- The `for (; cur->next; ...)` loop of `SparseMatrix::add` with the linking
and the row addition that follow it, run on the chain `cur->next`. -/
def SparseMatrix.link_after (temp curr : rowNode) : List rowNode → List rowNode
  | [] => [{ temp with list := temp.list.add curr.list }]
  | n :: rest =>
    if n.row > temp.row then
      { temp with list := temp.list.add curr.list } :: n :: rest
    else
      n :: SparseMatrix.link_after temp curr rest

/-- One round of the outer `while (curr)` loop of `SparseMatrix::add`, for the
row node `curr` of the other matrix.  The source does not touch `length`
here. -/
def SparseMatrix.add_row (m : SparseMatrix) (curr : rowNode) : SparseMatrix :=
  if (SparseMatrix.add_existing curr m.head).2 then
    { m with head := (SparseMatrix.add_existing curr m.head).1 }
  else
    match m.head with
    | [] =>
      { m with head :=
          [{ rowNode.construct curr.row m.columns with
              list := (rowNode.construct curr.row m.columns).list.add curr.list }] }
    | h :: t =>
      if h.row > curr.row then
        { m with head :=
            { rowNode.construct curr.row m.columns with
              list := (rowNode.construct curr.row m.columns).list.add curr.list } :: h :: t }
      else
        { m with head :=
            h :: SparseMatrix.link_after (rowNode.construct curr.row m.columns) curr t }

/-- Method `SparseMatrix::add`: the new state of the receiver. -/
def SparseMatrix.add (m other : SparseMatrix) : SparseMatrix :=
  other.head.foldl SparseMatrix.add_row m

/-! ## Specification vocabulary -/

/-- Column indices of a chain of column nodes, in chain order. -/
def column_keys (xs : List ColumnNode) : List Int := xs.map (fun n => n.columns)

/-- Row indices of a chain of row nodes, in chain order. -/
def row_keys (xs : List rowNode) : List Int := xs.map (fun n => n.row)

/-- Sorted insertion of a key into a list of keys: a key already present is
not inserted again. -/
def key_insert (k : Int) : List Int → List Int
  | [] => [k]
  | x :: xs =>
    if x = k then x :: xs
    else if x > k then k :: x :: xs
    else x :: key_insert k xs

/-- The chain of column nodes is strictly ascending by column. -/
def col_sorted (xs : List ColumnNode) : Prop :=
  (column_keys xs).Pairwise (fun a b => a < b)

/-- The chain of row nodes is strictly ascending by row index. -/
def row_sorted (xs : List rowNode) : Prop :=
  (row_keys xs).Pairwise (fun a b => a < b)

/-- Every stored value of the chain is a value of type `int`. -/
def data_in_range (xs : List ColumnNode) : Prop := ∀ n ∈ xs, is_int n.data

/-- Representation invariant of a row. -/
def ColumnLinkedList.valid (l : ColumnLinkedList) : Prop :=
  col_sorted l.head ∧ data_in_range l.head ∧ l.length = l.head.length

/-- Representation invariant of a matrix, without the `length` counter. -/
def SparseMatrix.valid (m : SparseMatrix) : Prop :=
  row_sorted m.head ∧ ∀ n ∈ m.head, n.list.valid ∧ n.list.columns = m.columns

/-- The first node of the chain with the given row index, as the scans of
`SparseMatrix` find it. -/
def SparseMatrix.stored_row (row : Int) : List rowNode → Option ColumnLinkedList
  | [] => none
  | n :: rest => if n.row = row then some n.list else SparseMatrix.stored_row row rest

/-- Logical value of a position: the value of the stored entry, or `0` when
the row or the entry is not stored. -/
def SparseMatrix.stored_value (m : SparseMatrix) (row column : Int) : Int :=
  match SparseMatrix.stored_row row m.head with
  | none => 0
  | some l => ColumnLinkedList.find_column column l.head

/-- Rows that a sequence of `set_value` and `add` calls can produce from a
constructed row.  The value passed to `set_value` is an `int`. -/
inductive RowReachable : ColumnLinkedList → Prop
  | construct (columns : Int) : RowReachable (ColumnLinkedList.construct columns)
  | set_value (l : ColumnLinkedList) (data column : Int) :
      RowReachable l → is_int data → RowReachable (l.set_value data column)
  | add (l other : ColumnLinkedList) :
      RowReachable l → RowReachable other → RowReachable (l.add other)

/-- Matrices that a sequence of `set_value` and `add` calls can produce from a
constructed matrix.  The value passed to `set_value` is an `int`; the argument
of `add` is any reachable matrix. -/
inductive Reachable : SparseMatrix → Prop
  | construct (rows columns : Int) : Reachable (SparseMatrix.construct rows columns)
  | set_value (m : SparseMatrix) (data row column : Int) :
      Reachable m → is_int data → Reachable (m.set_value data row column)
  | add (m other : SparseMatrix) :
      Reachable m → Reachable other → Reachable (m.add other)

/-- One `set_value` call on a matrix, with its arguments in source order. -/
structure SetCall where
  data : Int
  row : Int
  column : Int
deriving DecidableEq

/-- The matrix after a sequence of `set_value` calls, first call first. -/
def SparseMatrix.set_values (m : SparseMatrix) (ops : List SetCall) : SparseMatrix :=
  ops.foldl (fun acc op => acc.set_value op.data op.row op.column) m

/-- The value last written to position `(r, c)` by a sequence of `set_value`
calls, or `0` if no call wrote to it. -/
def last_written (ops : List SetCall) (r c : Int) : Int :=
  match ops.reverse.find? (fun op => decide (op.row = r ∧ op.column = c)) with
  | some op => op.data
  | none => 0

/-- The entries of the stored row with the given index; no entries when the row
is not stored. -/
def SparseMatrix.row_entries (row : Int) (xs : List rowNode) : List ColumnNode :=
  match SparseMatrix.stored_row row xs with
  | some l => l.head
  | none => []

/-- The dense line of `n` values read off a chain for the columns `count`,
`count + 1`, ...: the stored value where the chain has an entry, else `0`. -/
def dense_from (count : Int) : Nat → List ColumnNode → List Int
  | 0, _ => []
  | n + 1, curr => ColumnLinkedList.find_column count curr :: dense_from (count + 1) n curr

/-- The dense grid of `n` lines of `columns` values read off a chain of row nodes
for the rows `count`, `count + 1`, .... -/
def grid_from (columns : Nat) (count : Int) : Nat → List rowNode → List (List Int)
  | 0, _ => []
  | n + 1, curr =>
    dense_from 0 columns (SparseMatrix.row_entries count curr) ::
      grid_from columns (count + 1) n curr

/-- What the dense printing relies on: sorted rows with indices from `0`, each
row with the column count of the matrix and sorted entries with columns from
`0`. -/
def SparseMatrix.printable (m : SparseMatrix) : Prop :=
  row_sorted m.head ∧ (∀ k ∈ row_keys m.head, 0 ≤ k) ∧
    ∀ x ∈ m.head, x.list.columns = m.columns ∧ col_sorted x.list.head ∧
      ∀ k ∈ column_keys x.list.head, 0 ≤ k

/-- One `set_value` call on a row, with its arguments in source order. -/
structure RowSetCall where
  data : Int
  column : Int
deriving DecidableEq

/-- The row after a sequence of `set_value` calls, first call first. -/
def ColumnLinkedList.set_values (l : ColumnLinkedList) (ops : List RowSetCall) :
    ColumnLinkedList :=
  ops.foldl (fun acc op => acc.set_value op.data op.column) l

/-- The sparse rendering in the words of the specification: one pair for every
row of the row sequence, in sequence order, made of the row index and of the
list of the row's stored `(column, value)` pairs in chain order. -/
def SparseMatrix.render_sparse (m : SparseMatrix) : List (Int × List (Int × Int)) :=
  m.head.map (fun n => (n.row, n.list.head.map (fun e => (e.columns, e.data))))

/-- The matrix stores an entry at position `(r, c)`. -/
def SparseMatrix.has_entry (m : SparseMatrix) (r c : Int) : Prop :=
  ∃ n ∈ m.head, n.row = r ∧ c ∈ column_keys n.list.head

/-! ## Machine integers: lemmas -/

theorem wrap_int_of_is_int {x : Int} (h : is_int x) : wrap_int x = x := by
  unfold is_int INT_MIN INT_MAX at h
  unfold wrap_int
  omega

theorem is_int_wrap_int (x : Int) : is_int (wrap_int x) := by
  unfold is_int INT_MIN INT_MAX wrap_int
  omega

theorem wrap_int_add_wrap_int (a b : Int) : wrap_int (wrap_int a + b) = wrap_int (a + b) := by
  unfold wrap_int
  omega

theorem is_int_int_add (a b : Int) : is_int (int_add a b) := is_int_wrap_int _

theorem int_add_zero_left {b : Int} (h : is_int b) : int_add 0 b = b := by
  unfold int_add
  rw [Int.zero_add]
  exact wrap_int_of_is_int h

theorem int_add_zero_right {a : Int} (h : is_int a) : int_add a 0 = a := by
  unfold int_add
  rw [Int.add_zero]
  exact wrap_int_of_is_int h

theorem int_add_exact {a b : Int} (h : is_int (a + b)) : int_add a b = a + b :=
  wrap_int_of_is_int h

theorem is_int_zero : is_int 0 := by
  unfold is_int INT_MIN INT_MAX
  omega

/-! ## Sorted key lists -/

theorem mem_key_insert (k x : Int) (ks : List Int) :
    x ∈ key_insert k ks ↔ x = k ∨ x ∈ ks := by
  induction ks with
  | nil => simp [key_insert]
  | cons y ys ih =>
    unfold key_insert
    by_cases h1 : y = k
    · subst h1
      simp
    · by_cases h2 : y > k
      · simp [h1, h2]
      · simp only [h1, h2, if_false, List.mem_cons, ih]
        tauto

theorem pairwise_key_insert (k : Int) (ks : List Int)
    (h : ks.Pairwise (fun a b => a < b)) :
    (key_insert k ks).Pairwise (fun a b => a < b) := by
  induction ks with
  | nil => simp [key_insert]
  | cons y ys ih =>
    unfold key_insert
    rw [List.pairwise_cons] at h
    by_cases h1 : y = k
    · simp only [h1, if_true]
      rw [List.pairwise_cons]
      exact ⟨fun b hb => h1 ▸ h.1 b hb, h.2⟩
    · by_cases h2 : y > k
      · simp only [h1, h2, if_false, if_true]
        rw [List.pairwise_cons, List.pairwise_cons]
        refine ⟨?_, h.1, h.2⟩
        intro b hb
        rcases List.mem_cons.mp hb with hb | hb
        · omega
        · have := h.1 b hb
          omega
      · simp only [h1, h2, if_false]
        rw [List.pairwise_cons]
        refine ⟨?_, ih h.2⟩
        intro b hb
        rcases (mem_key_insert k b ys).mp hb with hb | hb
        · omega
        · exact h.1 b hb

/-! ## Rows: insertion -/

theorem ColumnLinkedList.column_keys_insert_after (node : ColumnNode) (xs : List ColumnNode) :
    column_keys (ColumnLinkedList.insert_after node xs).1 =
      key_insert node.columns (column_keys xs) := by
  induction xs with
  | nil => simp [ColumnLinkedList.insert_after, column_keys, key_insert]
  | cons y ys ih =>
    unfold ColumnLinkedList.insert_after
    by_cases h1 : y.columns = node.columns
    · simp [h1, column_keys, key_insert]
    · by_cases h2 : y.columns > node.columns
      · simp [h1, h2, column_keys, key_insert]
      · simp only [h1, h2, if_false]
        simp only [column_keys, List.map_cons, key_insert, h1, h2, if_false] at ih ⊢
        rw [ih]

theorem ColumnLinkedList.column_keys_insert_sorted (l : ColumnLinkedList) (node : ColumnNode) :
    column_keys (l.insert_sorted node).head = key_insert node.columns (column_keys l.head) := by
  unfold ColumnLinkedList.insert_sorted
  cases hh : l.head with
  | nil => simp [ColumnLinkedList.insert_front, hh, column_keys, key_insert]
  | cons y ys =>
    by_cases h2 : y.columns > node.columns
    · have h1 : ¬ y.columns = node.columns := by omega
      simp [h1, h2, ColumnLinkedList.insert_front, hh, column_keys, key_insert]
    · by_cases h1 : y.columns = node.columns
      · simp [h1, column_keys, key_insert]
      · have := ColumnLinkedList.column_keys_insert_after node ys
        simp only [h1, h2, if_false]
        simp only [column_keys, List.map_cons, key_insert, h1, h2, if_false] at this ⊢
        rw [this]

theorem ColumnLinkedList.insert_sorted_columns (l : ColumnLinkedList) (node : ColumnNode) :
    (l.insert_sorted node).columns = l.columns := by
  unfold ColumnLinkedList.insert_sorted
  cases l.head with
  | nil => rfl
  | cons y ys =>
    dsimp only
    split
    · rfl
    · split <;> rfl

theorem ColumnLinkedList.find_column_insert_after (node : ColumnNode) (c : Int)
    (xs : List ColumnNode) :
    ColumnLinkedList.find_column c (ColumnLinkedList.insert_after node xs).1 =
      if c = node.columns then node.data else ColumnLinkedList.find_column c xs := by
  induction xs with
  | nil =>
    by_cases hc : c = node.columns
    · simp [ColumnLinkedList.insert_after, ColumnLinkedList.find_column, hc]
    · have hc2 : ¬ node.columns = c := fun h => hc h.symm
      simp [ColumnLinkedList.insert_after, ColumnLinkedList.find_column, hc, hc2]
  | cons y ys ih =>
    unfold ColumnLinkedList.insert_after
    by_cases h1 : y.columns = node.columns
    · by_cases hc : c = node.columns
      · simp [h1, ColumnLinkedList.find_column, hc]
      · have hc2 : ¬ node.columns = c := fun h => hc h.symm
        simp [h1, ColumnLinkedList.find_column, hc, hc2]
    · by_cases h2 : y.columns > node.columns
      · by_cases hc : c = node.columns
        · simp [h1, h2, ColumnLinkedList.find_column, hc]
        · have hc2 : ¬ node.columns = c := fun h => hc h.symm
          simp [h1, h2, ColumnLinkedList.find_column, hc, hc2]
      · simp only [h1, h2, if_false]
        by_cases hc : c = node.columns
        · subst hc
          simp only [ColumnLinkedList.find_column, h1, if_false, ih, if_true]
        · simp only [ColumnLinkedList.find_column, ih, hc, if_false]

theorem ColumnLinkedList.find_column_insert_sorted (l : ColumnLinkedList) (node : ColumnNode)
    (c : Int) :
    ColumnLinkedList.find_column c (l.insert_sorted node).head =
      if c = node.columns then node.data else ColumnLinkedList.find_column c l.head := by
  unfold ColumnLinkedList.insert_sorted
  cases hh : l.head with
  | nil =>
    by_cases hc : c = node.columns
    · simp [ColumnLinkedList.insert_front, hh, ColumnLinkedList.find_column, hc]
    · have hc2 : ¬ node.columns = c := fun h => hc h.symm
      simp [ColumnLinkedList.insert_front, hh, ColumnLinkedList.find_column, hc, hc2]
  | cons y ys =>
    by_cases h2 : y.columns > node.columns
    · have h1 : ¬ y.columns = node.columns := by omega
      by_cases hc : c = node.columns
      · simp [h2, ColumnLinkedList.insert_front, hh, ColumnLinkedList.find_column, hc]
      · have hc2 : ¬ node.columns = c := fun h => hc h.symm
        simp [h2, ColumnLinkedList.insert_front, hh, ColumnLinkedList.find_column, hc, hc2]
    · by_cases h1 : y.columns = node.columns
      · by_cases hc : c = node.columns
        · simp [h1, ColumnLinkedList.find_column, hc]
        · have hc2 : ¬ node.columns = c := fun h => hc h.symm
          simp [h1, ColumnLinkedList.find_column, hc, hc2]
      · simp only [h1, h2, if_false]
        have := ColumnLinkedList.find_column_insert_after node c ys
        by_cases hc : c = node.columns
        · subst hc
          simp only [ColumnLinkedList.find_column, h1, if_false, this, if_true]
        · simp only [ColumnLinkedList.find_column, this, hc, if_false]

theorem ColumnLinkedList.length_insert_after (node : ColumnNode) (xs : List ColumnNode) :
    ((ColumnLinkedList.insert_after node xs).1.length : Int) =
      if (ColumnLinkedList.insert_after node xs).2 then (xs.length : Int) + 1
      else (xs.length : Int) := by
  induction xs with
  | nil => simp [ColumnLinkedList.insert_after]
  | cons y ys ih =>
    unfold ColumnLinkedList.insert_after
    by_cases h1 : y.columns = node.columns
    · simp [h1]
    · by_cases h2 : y.columns > node.columns
      · simp [h1, h2]
      · simp only [h1, h2, if_false, List.length_cons, Nat.cast_add, Nat.cast_one]
        rw [ih]
        split <;> rfl

theorem ColumnLinkedList.data_insert_after (node : ColumnNode) (xs : List ColumnNode)
    (hn : is_int node.data) (hx : data_in_range xs) :
    data_in_range (ColumnLinkedList.insert_after node xs).1 := by
  induction xs with
  | nil =>
    intro n hmem
    simp only [ColumnLinkedList.insert_after, List.mem_singleton] at hmem
    exact hmem ▸ hn
  | cons y ys ih =>
    have hy : is_int y.data := hx y (List.mem_cons_self _ _)
    have hys : data_in_range ys := fun n hmem => hx n (List.mem_cons_of_mem _ hmem)
    unfold ColumnLinkedList.insert_after
    intro n hmem
    by_cases h1 : y.columns = node.columns
    · simp only [h1, if_true, List.mem_cons] at hmem
      rcases hmem with hmem | hmem
      · exact hmem ▸ hn
      · exact hys n hmem
    · by_cases h2 : y.columns > node.columns
      · simp only [h1, h2, if_false, if_true, List.mem_cons] at hmem
        rcases hmem with hmem | hmem | hmem
        · exact hmem ▸ hn
        · exact hmem ▸ hy
        · exact hys n hmem
      · simp only [h1, h2, if_false, List.mem_cons] at hmem
        rcases hmem with hmem | hmem
        · exact hmem ▸ hy
        · exact ih hys n hmem

theorem ColumnLinkedList.insert_sorted_valid (l : ColumnLinkedList) (node : ColumnNode)
    (hn : is_int node.data) (hl : l.valid) : (l.insert_sorted node).valid := by
  obtain ⟨hs, hd, hlen⟩ := hl
  refine ⟨?_, ?_, ?_⟩
  · unfold col_sorted
    rw [ColumnLinkedList.column_keys_insert_sorted]
    exact pairwise_key_insert _ _ hs
  · unfold ColumnLinkedList.insert_sorted
    cases hh : l.head with
    | nil =>
      intro n hmem
      simp only [ColumnLinkedList.insert_front, hh, List.mem_singleton] at hmem
      exact hmem ▸ hn
    | cons y ys =>
      rw [hh] at hd
      have hy : is_int y.data := hd y (List.mem_cons_self _ _)
      have hys : data_in_range ys := fun n hmem => hd n (List.mem_cons_of_mem _ hmem)
      intro n hmem
      by_cases h2 : y.columns > node.columns
      · simp only [h2, if_true, ColumnLinkedList.insert_front, hh, List.mem_cons] at hmem
        rcases hmem with hmem | hmem | hmem
        · exact hmem ▸ hn
        · exact hmem ▸ hy
        · exact hys n hmem
      · by_cases h1 : y.columns = node.columns
        · dsimp only at hmem
          rw [if_neg h2, if_pos h1] at hmem
          simp only [List.mem_cons] at hmem
          rcases hmem with hmem | hmem
          · exact hmem ▸ hn
          · exact hys n hmem
        · simp only [h2, h1, if_false, List.mem_cons] at hmem
          rcases hmem with hmem | hmem
          · exact hmem ▸ hy
          · exact ColumnLinkedList.data_insert_after node ys hn hys n hmem
  · unfold ColumnLinkedList.insert_sorted
    cases hh : l.head with
    | nil =>
      simp only [ColumnLinkedList.insert_front, hh, hlen, List.length_cons, List.length_nil]
      rfl
    | cons y ys =>
      rw [hh] at hlen
      by_cases h2 : y.columns > node.columns
      · simp only [h2, if_true, ColumnLinkedList.insert_front, hh, hlen, List.length_cons,
          Nat.cast_add, Nat.cast_one]
      · by_cases h1 : y.columns = node.columns
        · dsimp only
          rw [if_neg h2, if_pos h1]
          simp only [hlen, List.length_cons]
        · simp only [h2, h1, if_false, hlen, List.length_cons, Nat.cast_add, Nat.cast_one]
          have := ColumnLinkedList.length_insert_after node ys
          split
          · rename_i hb
            rw [this, if_pos hb]
          · rename_i hb
            rw [this, if_neg hb]

/-! ## Rows: reading and adding -/

theorem ColumnLinkedList.find_column_of_not_mem (c : Int) (xs : List ColumnNode)
    (h : c ∉ column_keys xs) : ColumnLinkedList.find_column c xs = 0 := by
  induction xs with
  | nil => rfl
  | cons y ys ih =>
    simp only [column_keys, List.map_cons, List.mem_cons, not_or] at h
    have hy : ¬ y.columns = c := fun e => h.1 e.symm
    simp only [ColumnLinkedList.find_column, hy, if_false]
    exact ih h.2

theorem ColumnLinkedList.find_column_of_mem (xs : List ColumnNode) (hs : col_sorted xs)
    (n : ColumnNode) (hn : n ∈ xs) : ColumnLinkedList.find_column n.columns xs = n.data := by
  induction xs with
  | nil => cases hn
  | cons y ys ih =>
    unfold col_sorted column_keys at hs
    rw [List.map_cons, List.pairwise_cons] at hs
    rcases List.mem_cons.mp hn with hn | hn
    · subst hn
      simp [ColumnLinkedList.find_column]
    · have hlt : y.columns < n.columns := hs.1 _ (List.mem_map_of_mem _ hn)
      have hy : ¬ y.columns = n.columns := by omega
      simp only [ColumnLinkedList.find_column, hy, if_false]
      exact ih hs.2 hn

theorem ColumnLinkedList.is_int_find_column (c : Int) (xs : List ColumnNode)
    (h : data_in_range xs) : is_int (ColumnLinkedList.find_column c xs) := by
  induction xs with
  | nil => exact is_int_zero
  | cons y ys ih =>
    unfold ColumnLinkedList.find_column
    split
    · exact h y (List.mem_cons_self _ _)
    · exact ih (fun n hn => h n (List.mem_cons_of_mem _ hn))

theorem ColumnLinkedList.column_keys_add_existing (node : ColumnNode) (xs : List ColumnNode) :
    column_keys (ColumnLinkedList.add_existing node xs).1 = column_keys xs := by
  induction xs with
  | nil => rfl
  | cons y ys ih =>
    unfold ColumnLinkedList.add_existing
    simp only [column_keys, List.map_cons] at ih ⊢
    split
    · simp only [List.map_cons, ih]
    · simp only [List.map_cons, ih]

theorem ColumnLinkedList.row_add_existing_flag (node : ColumnNode) (xs : List ColumnNode) :
    (ColumnLinkedList.add_existing node xs).2 = true ↔ node.columns ∈ column_keys xs := by
  induction xs with
  | nil => simp [ColumnLinkedList.add_existing, column_keys]
  | cons y ys ih =>
    unfold ColumnLinkedList.add_existing
    simp only [column_keys, List.map_cons, List.mem_cons] at ih ⊢
    by_cases h1 : y.columns = node.columns
    · simp [h1]
    · have h1s : ¬ node.columns = y.columns := fun e => h1 e.symm
      simp only [h1, if_false, ih, h1s, false_or]

theorem ColumnLinkedList.length_add_existing (node : ColumnNode) (xs : List ColumnNode) :
    (ColumnLinkedList.add_existing node xs).1.length = xs.length := by
  have := congrArg List.length (ColumnLinkedList.column_keys_add_existing node xs)
  simpa [column_keys] using this

theorem ColumnLinkedList.data_add_existing (node : ColumnNode) (xs : List ColumnNode)
    (hx : data_in_range xs) : data_in_range (ColumnLinkedList.add_existing node xs).1 := by
  induction xs with
  | nil =>
    intro n hmem
    cases hmem
  | cons y ys ih =>
    have hy : is_int y.data := hx y (List.mem_cons_self _ _)
    have hys : data_in_range ys := fun n hmem => hx n (List.mem_cons_of_mem _ hmem)
    unfold ColumnLinkedList.add_existing
    intro n hmem
    by_cases h1 : y.columns = node.columns
    · rw [if_pos h1] at hmem
      rcases List.mem_cons.mp hmem with hmem | hmem
      · rw [hmem]
        exact is_int_int_add _ _
      · exact ih hys n hmem
    · rw [if_neg h1] at hmem
      rcases List.mem_cons.mp hmem with hmem | hmem
      · exact hmem ▸ hy
      · exact ih hys n hmem

theorem ColumnLinkedList.find_column_add_existing (node : ColumnNode) (c : Int)
    (xs : List ColumnNode) :
    ColumnLinkedList.find_column c (ColumnLinkedList.add_existing node xs).1 =
      if c = node.columns ∧ node.columns ∈ column_keys xs then
        int_add (ColumnLinkedList.find_column c xs) node.data
      else ColumnLinkedList.find_column c xs := by
  induction xs with
  | nil => simp [ColumnLinkedList.add_existing, column_keys, ColumnLinkedList.find_column]
  | cons y ys ih =>
    unfold ColumnLinkedList.add_existing
    simp only [column_keys, List.map_cons, List.mem_cons] at ih ⊢
    by_cases h1 : y.columns = node.columns
    · rw [if_pos h1]
      by_cases hc : c = node.columns
      · have hyc : y.columns = c := by omega
        simp [ColumnLinkedList.find_column, hyc, hc]
      · have hyc : ¬ y.columns = c := by omega
        simp only [ColumnLinkedList.find_column, hyc, if_false, ih, hc, false_and]
    · rw [if_neg h1]
      have h1s : ¬ node.columns = y.columns := fun e => h1 e.symm
      by_cases hc : c = node.columns
      · have hyc : ¬ y.columns = c := by omega
        simp only [ColumnLinkedList.find_column, hyc, if_false, ih, h1s, false_or]
      · simp only [ColumnLinkedList.find_column, ih, hc, false_and, if_false]

theorem ColumnLinkedList.add_node_columns (l : ColumnLinkedList) (curr : ColumnNode) :
    (l.add_node curr).columns = l.columns := by
  unfold ColumnLinkedList.add_node
  split
  · rfl
  · exact ColumnLinkedList.insert_sorted_columns _ _

theorem ColumnLinkedList.add_node_valid (l : ColumnLinkedList) (curr : ColumnNode)
    (hc : is_int curr.data) (hl : l.valid) : (l.add_node curr).valid := by
  unfold ColumnLinkedList.add_node
  split
  · obtain ⟨hs, hd, hlen⟩ := hl
    refine ⟨?_, ?_, ?_⟩
    · unfold col_sorted
      rw [ColumnLinkedList.column_keys_add_existing]
      exact hs
    · exact ColumnLinkedList.data_add_existing curr l.head hd
    · show l.length = ((ColumnLinkedList.add_existing curr l.head).1.length : Int)
      rw [ColumnLinkedList.length_add_existing]
      exact hlen
  · exact ColumnLinkedList.insert_sorted_valid l _ hc hl

theorem ColumnLinkedList.find_column_add_node (l : ColumnLinkedList) (curr : ColumnNode)
    (c : Int) (hc : is_int curr.data) :
    ColumnLinkedList.find_column c (l.add_node curr).head =
      if c = curr.columns then int_add (ColumnLinkedList.find_column c l.head) curr.data
      else ColumnLinkedList.find_column c l.head := by
  unfold ColumnLinkedList.add_node
  by_cases hf : (ColumnLinkedList.add_existing curr l.head).2 = true
  · rw [if_pos hf]
    have hmem := (ColumnLinkedList.row_add_existing_flag curr l.head).mp hf
    show ColumnLinkedList.find_column c (ColumnLinkedList.add_existing curr l.head).1 = _
    rw [ColumnLinkedList.find_column_add_existing]
    simp only [hmem, and_true]
  · rw [if_neg hf]
    have hmem : curr.columns ∉ column_keys l.head :=
      fun h => hf ((ColumnLinkedList.row_add_existing_flag curr l.head).mpr h)
    rw [ColumnLinkedList.find_column_insert_sorted]
    by_cases hcc : c = curr.columns
    · subst hcc
      simp only [if_true]
      rw [ColumnLinkedList.find_column_of_not_mem _ _ hmem, int_add_zero_left hc]
    · simp only [hcc, if_false]

theorem ColumnLinkedList.foldl_add_node_columns (os : List ColumnNode) (l : ColumnLinkedList) :
    (os.foldl ColumnLinkedList.add_node l).columns = l.columns := by
  induction os generalizing l with
  | nil => rfl
  | cons o os ih =>
    rw [List.foldl_cons, ih, ColumnLinkedList.add_node_columns]

theorem ColumnLinkedList.foldl_add_node_valid (os : List ColumnNode) (l : ColumnLinkedList)
    (ho : data_in_range os) (hl : l.valid) : (os.foldl ColumnLinkedList.add_node l).valid := by
  induction os generalizing l with
  | nil => exact hl
  | cons o os ih =>
    rw [List.foldl_cons]
    exact ih _ (fun n hn => ho n (List.mem_cons_of_mem _ hn))
      (ColumnLinkedList.add_node_valid l o (ho o (List.mem_cons_self _ _)) hl)

theorem ColumnLinkedList.find_column_foldl_add_node (os : List ColumnNode)
    (l : ColumnLinkedList) (c : Int) (ho : data_in_range os) (hs : col_sorted os)
    (hl : data_in_range l.head) :
    ColumnLinkedList.find_column c (os.foldl ColumnLinkedList.add_node l).head =
      int_add (ColumnLinkedList.find_column c l.head) (ColumnLinkedList.find_column c os) := by
  induction os generalizing l with
  | nil =>
    simp only [List.foldl_nil, ColumnLinkedList.find_column]
    exact (int_add_zero_right (ColumnLinkedList.is_int_find_column c _ hl)).symm
  | cons o os ih =>
    have ho1 : is_int o.data := ho o (List.mem_cons_self _ _)
    have hos : data_in_range os := fun n hn => ho n (List.mem_cons_of_mem _ hn)
    unfold col_sorted column_keys at hs
    rw [List.map_cons, List.pairwise_cons] at hs
    have hl1 : data_in_range (l.add_node o).head := by
      unfold ColumnLinkedList.add_node
      split
      · exact ColumnLinkedList.data_add_existing o l.head hl
      · unfold ColumnLinkedList.insert_sorted
        cases hh : l.head with
        | nil =>
          intro n hmem
          simp only [ColumnLinkedList.insert_front, hh, List.mem_singleton] at hmem
          exact hmem ▸ ho1
        | cons y ys =>
          rw [hh] at hl
          have hy : is_int y.data := hl y (List.mem_cons_self _ _)
          have hys : data_in_range ys := fun n hmem => hl n (List.mem_cons_of_mem _ hmem)
          intro n hmem
          dsimp only at hmem
          by_cases h2 : y.columns > o.columns
          · rw [if_pos h2] at hmem
            simp only [ColumnLinkedList.insert_front, hh, List.mem_cons] at hmem
            rcases hmem with hmem | hmem | hmem
            · exact hmem ▸ ho1
            · exact hmem ▸ hy
            · exact hys n hmem
          · by_cases h1 : y.columns = o.columns
            · rw [if_neg h2, if_pos h1] at hmem
              simp only [List.mem_cons] at hmem
              rcases hmem with hmem | hmem
              · exact hmem ▸ ho1
              · exact hys n hmem
            · rw [if_neg h2, if_neg h1] at hmem
              simp only [List.mem_cons] at hmem
              rcases hmem with hmem | hmem
              · exact hmem ▸ hy
              · exact ColumnLinkedList.data_insert_after _ ys ho1 hys n hmem
    rw [List.foldl_cons, ih _ hos hs.2 hl1, ColumnLinkedList.find_column_add_node l o c ho1]
    by_cases hc : c = o.columns
    · subst hc
      have hnot : o.columns ∉ column_keys os := by
        intro hmem
        have := hs.1 _ hmem
        omega
      simp only [if_true, ColumnLinkedList.find_column]
      rw [ColumnLinkedList.find_column_of_not_mem _ _ hnot,
        int_add_zero_right (is_int_int_add _ _)]
    · have hc2 : ¬ o.columns = c := fun e => hc e.symm
      simp only [hc, if_false, ColumnLinkedList.find_column, hc2]

theorem ColumnLinkedList.mem_column_keys_add_node (l : ColumnLinkedList) (curr : ColumnNode)
    (x : Int) :
    x ∈ column_keys (l.add_node curr).head ↔ x = curr.columns ∨ x ∈ column_keys l.head := by
  unfold ColumnLinkedList.add_node
  by_cases hf : (ColumnLinkedList.add_existing curr l.head).2 = true
  · rw [if_pos hf]
    have hmem := (ColumnLinkedList.row_add_existing_flag curr l.head).mp hf
    show x ∈ column_keys (ColumnLinkedList.add_existing curr l.head).1 ↔ _
    rw [ColumnLinkedList.column_keys_add_existing]
    constructor
    · exact fun h => Or.inr h
    · rintro (h | h)
      · exact h ▸ hmem
      · exact h
  · rw [if_neg hf, ColumnLinkedList.column_keys_insert_sorted, mem_key_insert]

theorem ColumnLinkedList.mem_column_keys_foldl_add_node (os : List ColumnNode)
    (l : ColumnLinkedList) (x : Int) :
    x ∈ column_keys (os.foldl ColumnLinkedList.add_node l).head ↔
      x ∈ column_keys l.head ∨ x ∈ column_keys os := by
  induction os generalizing l with
  | nil => simp [column_keys]
  | cons o os ih =>
    rw [List.foldl_cons, ih, ColumnLinkedList.mem_column_keys_add_node]
    simp only [column_keys, List.map_cons, List.mem_cons]
    tauto

theorem ColumnLinkedList.row_construct_valid (columns : Int) :
    (ColumnLinkedList.construct columns).valid := by
  refine ⟨?_, ?_, rfl⟩
  · exact List.Pairwise.nil
  · intro n hn
    cases hn

theorem ColumnLinkedList.row_set_value_valid (l : ColumnLinkedList) (data column : Int)
    (hd : is_int data) (hl : l.valid) : (l.set_value data column).valid :=
  ColumnLinkedList.insert_sorted_valid l _ hd hl

theorem ColumnLinkedList.set_value_columns (l : ColumnLinkedList) (data column : Int) :
    (l.set_value data column).columns = l.columns :=
  ColumnLinkedList.insert_sorted_columns _ _

theorem ColumnLinkedList.find_column_set_value (l : ColumnLinkedList) (data column c : Int) :
    ColumnLinkedList.find_column c (l.set_value data column).head =
      if c = column then data else ColumnLinkedList.find_column c l.head :=
  ColumnLinkedList.find_column_insert_sorted l _ c

theorem ColumnLinkedList.row_add_valid (l other : ColumnLinkedList) (ho : other.valid)
    (hl : l.valid) : (l.add other).valid :=
  ColumnLinkedList.foldl_add_node_valid other.head l ho.2.1 hl

theorem ColumnLinkedList.add_columns (l other : ColumnLinkedList) :
    (l.add other).columns = l.columns :=
  ColumnLinkedList.foldl_add_node_columns other.head l

theorem ColumnLinkedList.find_column_add (l other : ColumnLinkedList) (c : Int)
    (ho : other.valid) (hl : data_in_range l.head) :
    ColumnLinkedList.find_column c (l.add other).head =
      int_add (ColumnLinkedList.find_column c l.head)
        (ColumnLinkedList.find_column c other.head) :=
  ColumnLinkedList.find_column_foldl_add_node other.head l c ho.2.1 ho.1 hl

theorem RowReachable.row_valid {l : ColumnLinkedList} (h : RowReachable l) : l.valid := by
  induction h with
  | construct columns => exact ColumnLinkedList.row_construct_valid columns
  | set_value l data column _ hd ih => exact ColumnLinkedList.row_set_value_valid l data column hd ih
  | add l other _ _ ihl iho => exact ColumnLinkedList.row_add_valid l other iho ihl

/-! ## Matrix: stored rows and `set_value` -/

theorem SparseMatrix.stored_row_of_not_mem (r : Int) (xs : List rowNode)
    (h : r ∉ row_keys xs) : SparseMatrix.stored_row r xs = none := by
  induction xs with
  | nil => rfl
  | cons y ys ih =>
    simp only [row_keys, List.map_cons, List.mem_cons, not_or] at h
    have hy : ¬ y.row = r := fun e => h.1 e.symm
    simp only [SparseMatrix.stored_row, hy, if_false]
    exact ih h.2

theorem SparseMatrix.stored_row_mem (r : Int) (xs : List rowNode) (l : ColumnLinkedList)
    (h : SparseMatrix.stored_row r xs = some l) : ∃ n ∈ xs, n.row = r ∧ n.list = l := by
  induction xs with
  | nil => cases h
  | cons y ys ih =>
    unfold SparseMatrix.stored_row at h
    by_cases hy : y.row = r
    · rw [if_pos hy] at h
      exact ⟨y, List.mem_cons_self _ _, hy, Option.some.inj h⟩
    · rw [if_neg hy] at h
      obtain ⟨n, hn, hr, hl⟩ := ih h
      exact ⟨n, List.mem_cons_of_mem _ hn, hr, hl⟩

theorem SparseMatrix.stored_row_of_mem (xs : List rowNode) (hs : row_sorted xs)
    (n : rowNode) (hn : n ∈ xs) : SparseMatrix.stored_row n.row xs = some n.list := by
  induction xs with
  | nil => cases hn
  | cons y ys ih =>
    unfold row_sorted row_keys at hs
    rw [List.map_cons, List.pairwise_cons] at hs
    rcases List.mem_cons.mp hn with hn | hn
    · subst hn
      simp [SparseMatrix.stored_row]
    · have hlt : y.row < n.row := hs.1 _ (List.mem_map_of_mem _ hn)
      have hy : ¬ y.row = n.row := by omega
      simp only [SparseMatrix.stored_row, hy, if_false]
      exact ih hs.2 hn

theorem SparseMatrix.find_row_eq (r c : Int) (xs : List rowNode) :
    SparseMatrix.find_row r c xs =
      match SparseMatrix.stored_row r xs with
      | none => some 0
      | some l => l.get_value c := by
  induction xs with
  | nil => rfl
  | cons y ys ih =>
    unfold SparseMatrix.find_row SparseMatrix.stored_row
    by_cases hy : y.row = r
    · simp only [hy, if_true]
    · simp only [hy, if_false]
      exact ih

theorem SparseMatrix.row_keys_insert_after (data : Int) (node : rowNode) (column : Int)
    (xs : List rowNode) :
    row_keys (SparseMatrix.insert_after data node column xs).1 =
      key_insert node.row (row_keys xs) := by
  induction xs with
  | nil => simp [SparseMatrix.insert_after, row_keys, key_insert]
  | cons y ys ih =>
    unfold SparseMatrix.insert_after
    by_cases h1 : y.row = node.row
    · rw [if_pos h1]
      simp [h1, row_keys, key_insert]
    · by_cases h2 : y.row > node.row
      · rw [if_neg h1, if_pos h2]
        simp [h1, h2, row_keys, key_insert]
      · rw [if_neg h1, if_neg h2]
        simp only [row_keys, List.map_cons, key_insert, h1, h2, if_false] at ih ⊢
        rw [ih]

theorem SparseMatrix.insert_sorted_of_cons {m : SparseMatrix} {h : rowNode} {t : List rowNode}
    (hh : m.head = h :: t) (data : Int) (node : rowNode) (column : Int) :
    m.insert_sorted data node column =
      if h.row > node.row then m.insert_front node data column
      else if h.row = node.row then
        { m with head := { h with list := h.list.set_value data column } :: t }
      else
        { m with
          head := h :: (SparseMatrix.insert_after data node column t).1
          length :=
            if (SparseMatrix.insert_after data node column t).2 then m.length + 1
            else m.length } := by
  unfold SparseMatrix.insert_sorted
  rw [hh]

theorem SparseMatrix.insert_sorted_of_nil {m : SparseMatrix} (hh : m.head = [])
    (data : Int) (node : rowNode) (column : Int) :
    m.insert_sorted data node column = m.insert_front node data column := by
  unfold SparseMatrix.insert_sorted
  rw [hh]

theorem SparseMatrix.row_keys_insert_sorted (m : SparseMatrix) (data : Int) (node : rowNode)
    (column : Int) :
    row_keys (m.insert_sorted data node column).head = key_insert node.row (row_keys m.head) := by
  cases hh : m.head with
  | nil =>
    rw [SparseMatrix.insert_sorted_of_nil hh]
    simp [SparseMatrix.insert_front, hh, row_keys, key_insert]
  | cons y ys =>
    rw [SparseMatrix.insert_sorted_of_cons hh]
    by_cases h2 : y.row > node.row
    · have h1 : ¬ y.row = node.row := by omega
      rw [if_pos h2]
      simp [h1, h2, SparseMatrix.insert_front, hh, row_keys, key_insert]
    · by_cases h1 : y.row = node.row
      · rw [if_neg h2, if_pos h1]
        simp [h1, row_keys, key_insert]
      · rw [if_neg h2, if_neg h1]
        have := SparseMatrix.row_keys_insert_after data node column ys
        simp only [row_keys, List.map_cons, key_insert, h1, h2, if_false] at this ⊢
        rw [this]

theorem SparseMatrix.insert_sorted_dims (m : SparseMatrix) (data : Int) (node : rowNode)
    (column : Int) :
    (m.insert_sorted data node column).rows = m.rows ∧
      (m.insert_sorted data node column).columns = m.columns := by
  cases hh : m.head with
  | nil =>
    rw [SparseMatrix.insert_sorted_of_nil hh]
    exact ⟨rfl, rfl⟩
  | cons y ys =>
    rw [SparseMatrix.insert_sorted_of_cons hh]
    split
    · exact ⟨rfl, rfl⟩
    · split <;> exact ⟨rfl, rfl⟩

theorem SparseMatrix.stored_row_insert_after (data : Int) (node : rowNode) (column r : Int)
    (xs : List rowNode) (hs : row_sorted xs) :
    SparseMatrix.stored_row r (SparseMatrix.insert_after data node column xs).1 =
      if r = node.row then
        some (((SparseMatrix.stored_row r xs).getD node.list).set_value data column)
      else SparseMatrix.stored_row r xs := by
  induction xs with
  | nil =>
    by_cases hr : r = node.row
    · simp [SparseMatrix.insert_after, SparseMatrix.stored_row, hr]
    · have hr2 : ¬ node.row = r := fun e => hr e.symm
      simp [SparseMatrix.insert_after, SparseMatrix.stored_row, hr, hr2]
  | cons y ys ih =>
    unfold row_sorted row_keys at hs
    rw [List.map_cons, List.pairwise_cons] at hs
    unfold SparseMatrix.insert_after
    by_cases h1 : y.row = node.row
    · rw [if_pos h1]
      by_cases hr : r = node.row
      · have hyr : y.row = r := by omega
        simp [SparseMatrix.stored_row, hyr, hr]
      · have hyr : ¬ y.row = r := by omega
        simp only [SparseMatrix.stored_row, hyr, if_false, hr]
    · by_cases h2 : y.row > node.row
      · rw [if_neg h1, if_pos h2]
        by_cases hr : r = node.row
        · subst hr
          have hnot : node.row ∉ row_keys ys := by
            intro hmem
            have := hs.1 _ hmem
            omega
          simp only [SparseMatrix.stored_row, if_true, h1, if_false,
            SparseMatrix.stored_row_of_not_mem _ _ hnot, Option.getD_none]
        · have hr2 : ¬ node.row = r := fun e => hr e.symm
          simp only [SparseMatrix.stored_row, hr2, if_false, hr]
      · rw [if_neg h1, if_neg h2]
        by_cases hr : r = node.row
        · subst hr
          simp only [SparseMatrix.stored_row, h1, if_false, ih hs.2, if_true]
        · simp only [SparseMatrix.stored_row, ih hs.2, hr, if_false]

theorem SparseMatrix.stored_row_set_value (m : SparseMatrix) (data row column r : Int)
    (hs : row_sorted m.head) :
    SparseMatrix.stored_row r (m.set_value data row column).head =
      if r = row then
        some (((SparseMatrix.stored_row r m.head).getD
          (ColumnLinkedList.construct m.columns)).set_value data column)
      else SparseMatrix.stored_row r m.head := by
  unfold SparseMatrix.set_value
  cases hh : m.head with
  | nil =>
    rw [SparseMatrix.insert_sorted_of_nil hh]
    by_cases hr : r = row
    · simp [SparseMatrix.insert_front, SparseMatrix.stored_row, rowNode.construct, hr]
    · have hr2 : ¬ row = r := fun e => hr e.symm
      simp [SparseMatrix.insert_front, SparseMatrix.stored_row, rowNode.construct, hr, hr2, hh]
  | cons y ys =>
    rw [hh] at hs
    unfold row_sorted row_keys at hs
    rw [List.map_cons, List.pairwise_cons] at hs
    rw [SparseMatrix.insert_sorted_of_cons hh]
    have hnode : (rowNode.construct row m.columns).row = row := rfl
    have hlist : (rowNode.construct row m.columns).list = ColumnLinkedList.construct m.columns :=
      rfl
    rw [hnode]
    by_cases h2 : y.row > row
    · rw [if_pos h2]
      have h1 : ¬ y.row = row := by omega
      by_cases hr : r = row
      · subst hr
        have hnot : r ∉ row_keys ys := by
          intro hmem
          have := hs.1 _ hmem
          omega
        simp only [SparseMatrix.insert_front, hh, SparseMatrix.stored_row, hnode, if_true, h1,
          if_false, SparseMatrix.stored_row_of_not_mem _ _ hnot, Option.getD_none, hlist]
      · have hr2 : ¬ row = r := fun e => hr e.symm
        simp only [SparseMatrix.insert_front, hh, SparseMatrix.stored_row, hnode, hr2, if_false,
          hr]
    · by_cases h1 : y.row = row
      · rw [if_neg h2, if_pos h1]
        by_cases hr : r = row
        · have hyr : y.row = r := by omega
          simp [SparseMatrix.stored_row, hyr, hr]
        · have hyr : ¬ y.row = r := by omega
          simp only [SparseMatrix.stored_row, hyr, if_false, hr]
      · rw [if_neg h2, if_neg h1]
        have hia := SparseMatrix.stored_row_insert_after data (rowNode.construct row m.columns)
          column r ys hs.2
        rw [hnode, hlist] at hia
        by_cases hr : r = row
        · subst hr
          simp only [SparseMatrix.stored_row, h1, if_false, hia, if_true]
        · simp only [SparseMatrix.stored_row, hia, hr, if_false]

theorem SparseMatrix.insert_after_forall (P : rowNode → Prop) (data : Int) (node : rowNode)
    (column : Int) (xs : List rowNode) (hxs : ∀ n ∈ xs, P n)
    (hnew : P { node with list := node.list.set_value data column })
    (hupd : ∀ n ∈ xs, P { n with list := n.list.set_value data column }) :
    ∀ n ∈ (SparseMatrix.insert_after data node column xs).1, P n := by
  induction xs with
  | nil =>
    intro n hn
    simp only [SparseMatrix.insert_after, List.mem_singleton] at hn
    exact hn ▸ hnew
  | cons y ys ih =>
    have hy := hxs y (List.mem_cons_self _ _)
    have hys : ∀ n ∈ ys, P n := fun n hn => hxs n (List.mem_cons_of_mem _ hn)
    have hupdy := hupd y (List.mem_cons_self _ _)
    have hupdys : ∀ n ∈ ys, P { n with list := n.list.set_value data column } :=
      fun n hn => hupd n (List.mem_cons_of_mem _ hn)
    unfold SparseMatrix.insert_after
    intro n hn
    by_cases h1 : y.row = node.row
    · rw [if_pos h1] at hn
      rcases List.mem_cons.mp hn with hn | hn
      · exact hn ▸ hupdy
      · exact hys n hn
    · by_cases h2 : y.row > node.row
      · rw [if_neg h1, if_pos h2] at hn
        simp only [List.mem_cons] at hn
        rcases hn with hn | hn | hn
        · exact hn ▸ hnew
        · exact hn ▸ hy
        · exact hys n hn
      · rw [if_neg h1, if_neg h2] at hn
        rcases List.mem_cons.mp hn with hn | hn
        · exact hn ▸ hy
        · exact ih hys hupdys n hn

theorem SparseMatrix.set_value_forall (P : rowNode → Prop) (m : SparseMatrix)
    (data row column : Int) (hxs : ∀ n ∈ m.head, P n)
    (hnew : P { row := row, list := (ColumnLinkedList.construct m.columns).set_value data column })
    (hupd : ∀ n ∈ m.head, P { n with list := n.list.set_value data column }) :
    ∀ n ∈ (m.set_value data row column).head, P n := by
  unfold SparseMatrix.set_value
  cases hh : m.head with
  | nil =>
    rw [SparseMatrix.insert_sorted_of_nil hh]
    intro n hn
    simp only [SparseMatrix.insert_front, hh, List.mem_singleton] at hn
    exact hn ▸ hnew
  | cons y ys =>
    rw [hh] at hxs hupd
    have hy := hxs y (List.mem_cons_self _ _)
    have hys : ∀ n ∈ ys, P n := fun n hn => hxs n (List.mem_cons_of_mem _ hn)
    have hupdy := hupd y (List.mem_cons_self _ _)
    have hupdys : ∀ n ∈ ys, P { n with list := n.list.set_value data column } :=
      fun n hn => hupd n (List.mem_cons_of_mem _ hn)
    rw [SparseMatrix.insert_sorted_of_cons hh]
    intro n hn
    by_cases h2 : y.row > (rowNode.construct row m.columns).row
    · rw [if_pos h2] at hn
      simp only [SparseMatrix.insert_front, hh, List.mem_cons] at hn
      rcases hn with hn | hn | hn
      · exact hn ▸ hnew
      · exact hn ▸ hy
      · exact hys n hn
    · by_cases h1 : y.row = (rowNode.construct row m.columns).row
      · rw [if_neg h2, if_pos h1] at hn
        simp only [List.mem_cons] at hn
        rcases hn with hn | hn
        · exact hn ▸ hupdy
        · exact hys n hn
      · rw [if_neg h2, if_neg h1] at hn
        simp only [List.mem_cons] at hn
        rcases hn with hn | hn
        · exact hn ▸ hy
        · exact SparseMatrix.insert_after_forall P data _ column ys hys hnew hupdys n hn

theorem SparseMatrix.set_value_dims (m : SparseMatrix) (data row column : Int) :
    (m.set_value data row column).rows = m.rows ∧
      (m.set_value data row column).columns = m.columns :=
  SparseMatrix.insert_sorted_dims _ _ _ _

theorem SparseMatrix.set_value_valid (m : SparseMatrix) (data row column : Int)
    (hd : is_int data) (hm : m.valid) : (m.set_value data row column).valid := by
  obtain ⟨hs, hrows⟩ := hm
  refine ⟨?_, ?_⟩
  · unfold row_sorted SparseMatrix.set_value
    rw [SparseMatrix.row_keys_insert_sorted]
    exact pairwise_key_insert _ _ hs
  · rw [(SparseMatrix.set_value_dims m data row column).2]
    apply SparseMatrix.set_value_forall
      (fun n => n.list.valid ∧ n.list.columns = m.columns) m data row column hrows
    · exact ⟨ColumnLinkedList.row_set_value_valid _ _ _ hd (ColumnLinkedList.row_construct_valid _),
        ColumnLinkedList.set_value_columns _ _ _⟩
    · intro n hn
      exact ⟨ColumnLinkedList.row_set_value_valid _ _ _ hd (hrows n hn).1,
        (ColumnLinkedList.set_value_columns _ _ _).trans (hrows n hn).2⟩

theorem SparseMatrix.construct_valid (rows columns : Int) :
    (SparseMatrix.construct rows columns).valid := by
  refine ⟨List.Pairwise.nil, ?_⟩
  intro n hn
  cases hn

theorem SparseMatrix.stored_value_set_value (m : SparseMatrix) (data row column r c : Int)
    (hs : row_sorted m.head) :
    (m.set_value data row column).stored_value r c =
      if r = row ∧ c = column then data else m.stored_value r c := by
  unfold SparseMatrix.stored_value
  rw [SparseMatrix.stored_row_set_value m data row column r hs]
  by_cases hr : r = row
  · simp only [hr, if_true, true_and, ColumnLinkedList.find_column_set_value]
    by_cases hc : c = column
    · simp only [hc, if_true]
    · simp only [hc, if_false]
      cases SparseMatrix.stored_row row m.head with
      | none => rfl
      | some l => rfl
  · simp only [hr, if_false, false_and]

/-! ## Matrix: `add` -/

theorem SparseMatrix.row_keys_add_existing (curr : rowNode) (xs : List rowNode) :
    row_keys (SparseMatrix.add_existing curr xs).1 = row_keys xs := by
  induction xs with
  | nil => rfl
  | cons y ys ih =>
    unfold SparseMatrix.add_existing
    simp only [row_keys, List.map_cons] at ih ⊢
    split
    · simp only [List.map_cons, ih]
    · simp only [List.map_cons, ih]

theorem SparseMatrix.add_existing_flag (curr : rowNode) (xs : List rowNode) :
    (SparseMatrix.add_existing curr xs).2 = true ↔ curr.row ∈ row_keys xs := by
  induction xs with
  | nil => simp [SparseMatrix.add_existing, row_keys]
  | cons y ys ih =>
    unfold SparseMatrix.add_existing
    simp only [row_keys, List.map_cons, List.mem_cons] at ih ⊢
    by_cases h1 : y.row = curr.row
    · simp [h1]
    · have h1s : ¬ curr.row = y.row := fun e => h1 e.symm
      simp only [h1, if_false, ih, h1s, false_or]

theorem SparseMatrix.stored_row_add_existing (curr : rowNode) (r : Int) (xs : List rowNode) :
    SparseMatrix.stored_row r (SparseMatrix.add_existing curr xs).1 =
      if r = curr.row then
        (SparseMatrix.stored_row r xs).map (fun l => l.add curr.list)
      else SparseMatrix.stored_row r xs := by
  induction xs with
  | nil => simp [SparseMatrix.add_existing, SparseMatrix.stored_row]
  | cons y ys ih =>
    unfold SparseMatrix.add_existing
    by_cases h1 : y.row = curr.row
    · rw [if_pos h1]
      by_cases hr : r = curr.row
      · have hyr : y.row = r := by omega
        simp [SparseMatrix.stored_row, hyr, hr]
      · have hyr : ¬ y.row = r := by omega
        simp only [SparseMatrix.stored_row, hyr, if_false, ih, hr]
    · rw [if_neg h1]
      by_cases hr : r = curr.row
      · subst hr
        simp only [SparseMatrix.stored_row, h1, if_false, ih, if_true]
      · simp only [SparseMatrix.stored_row, ih, hr, if_false]

theorem SparseMatrix.stored_row_of_mem_keys (r : Int) (xs : List rowNode)
    (h : r ∈ row_keys xs) : ∃ l, SparseMatrix.stored_row r xs = some l := by
  cases hsr : SparseMatrix.stored_row r xs with
  | some l => exact ⟨l, rfl⟩
  | none =>
    exfalso
    induction xs with
    | nil => simp [row_keys] at h
    | cons y ys ih =>
      unfold SparseMatrix.stored_row at hsr
      by_cases hy : y.row = r
      · rw [if_pos hy] at hsr
        cases hsr
      · rw [if_neg hy] at hsr
        simp only [row_keys, List.map_cons, List.mem_cons] at h
        rcases h with h | h
        · exact hy h.symm
        · exact ih h hsr

theorem SparseMatrix.add_existing_forall (P : rowNode → Prop) (curr : rowNode)
    (xs : List rowNode) (hxs : ∀ n ∈ xs, P n)
    (hupd : ∀ n ∈ xs, P { n with list := n.list.add curr.list }) :
    ∀ n ∈ (SparseMatrix.add_existing curr xs).1, P n := by
  induction xs with
  | nil =>
    intro n hn
    cases hn
  | cons y ys ih =>
    have hy := hxs y (List.mem_cons_self _ _)
    have hys : ∀ n ∈ ys, P n := fun n hn => hxs n (List.mem_cons_of_mem _ hn)
    have hupdy := hupd y (List.mem_cons_self _ _)
    have hupdys : ∀ n ∈ ys, P { n with list := n.list.add curr.list } :=
      fun n hn => hupd n (List.mem_cons_of_mem _ hn)
    unfold SparseMatrix.add_existing
    intro n hn
    by_cases h1 : y.row = curr.row
    · rw [if_pos h1] at hn
      rcases List.mem_cons.mp hn with hn | hn
      · exact hn ▸ hupdy
      · exact ih hys hupdys n hn
    · rw [if_neg h1] at hn
      rcases List.mem_cons.mp hn with hn | hn
      · exact hn ▸ hy
      · exact ih hys hupdys n hn

theorem SparseMatrix.row_keys_link_after (temp curr : rowNode) (xs : List rowNode)
    (hnot : temp.row ∉ row_keys xs) :
    row_keys (SparseMatrix.link_after temp curr xs) = key_insert temp.row (row_keys xs) := by
  induction xs with
  | nil => simp [SparseMatrix.link_after, row_keys, key_insert]
  | cons y ys ih =>
    simp only [row_keys, List.map_cons, List.mem_cons, not_or] at hnot ih
    have h1 : ¬ y.row = temp.row := fun e => hnot.1 e.symm
    unfold SparseMatrix.link_after
    by_cases h2 : y.row > temp.row
    · rw [if_pos h2]
      simp [h1, h2, row_keys, key_insert]
    · rw [if_neg h2]
      simp only [row_keys, List.map_cons, key_insert, h1, h2, if_false]
      rw [ih hnot.2]

theorem SparseMatrix.stored_row_link_after (temp curr : rowNode) (r : Int) (xs : List rowNode)
    (hnot : temp.row ∉ row_keys xs) :
    SparseMatrix.stored_row r (SparseMatrix.link_after temp curr xs) =
      if r = temp.row then some (temp.list.add curr.list)
      else SparseMatrix.stored_row r xs := by
  induction xs with
  | nil =>
    by_cases hr : r = temp.row
    · simp [SparseMatrix.link_after, SparseMatrix.stored_row, hr]
    · have hr2 : ¬ temp.row = r := fun e => hr e.symm
      simp [SparseMatrix.link_after, SparseMatrix.stored_row, hr, hr2]
  | cons y ys ih =>
    simp only [row_keys, List.map_cons, List.mem_cons, not_or] at hnot ih
    have h1 : ¬ y.row = temp.row := fun e => hnot.1 e.symm
    unfold SparseMatrix.link_after
    by_cases h2 : y.row > temp.row
    · rw [if_pos h2]
      by_cases hr : r = temp.row
      · simp [SparseMatrix.stored_row, hr]
      · have hr2 : ¬ temp.row = r := fun e => hr e.symm
        simp only [SparseMatrix.stored_row, hr2, if_false, hr]
    · rw [if_neg h2]
      by_cases hr : r = temp.row
      · subst hr
        simp only [SparseMatrix.stored_row, h1, if_false, ih hnot.2, if_true]
      · simp only [SparseMatrix.stored_row, ih hnot.2, hr, if_false]

theorem SparseMatrix.link_after_forall (P : rowNode → Prop) (temp curr : rowNode)
    (xs : List rowNode) (hxs : ∀ n ∈ xs, P n)
    (hnew : P { temp with list := temp.list.add curr.list }) :
    ∀ n ∈ SparseMatrix.link_after temp curr xs, P n := by
  induction xs with
  | nil =>
    intro n hn
    simp only [SparseMatrix.link_after, List.mem_singleton] at hn
    exact hn ▸ hnew
  | cons y ys ih =>
    have hy := hxs y (List.mem_cons_self _ _)
    have hys : ∀ n ∈ ys, P n := fun n hn => hxs n (List.mem_cons_of_mem _ hn)
    unfold SparseMatrix.link_after
    intro n hn
    by_cases h2 : y.row > temp.row
    · rw [if_pos h2] at hn
      simp only [List.mem_cons] at hn
      rcases hn with hn | hn | hn
      · exact hn ▸ hnew
      · exact hn ▸ hy
      · exact hys n hn
    · rw [if_neg h2] at hn
      rcases List.mem_cons.mp hn with hn | hn
      · exact hn ▸ hy
      · exact ih hys n hn

theorem SparseMatrix.add_row_of_existing {m : SparseMatrix} {curr : rowNode}
    (h : curr.row ∈ row_keys m.head) :
    m.add_row curr = { m with head := (SparseMatrix.add_existing curr m.head).1 } := by
  unfold SparseMatrix.add_row
  rw [if_pos ((SparseMatrix.add_existing_flag curr m.head).mpr h)]

theorem SparseMatrix.add_row_of_nil {m : SparseMatrix} {curr : rowNode} (hh : m.head = []) :
    m.add_row curr =
      { m with head :=
          [{ row := curr.row, list := (ColumnLinkedList.construct m.columns).add curr.list }] } := by
  unfold SparseMatrix.add_row
  rw [hh]
  rfl

theorem SparseMatrix.add_row_of_cons {m : SparseMatrix} {curr h : rowNode} {t : List rowNode}
    (hh : m.head = h :: t) (hnot : curr.row ∉ row_keys m.head) :
    m.add_row curr =
      if h.row > curr.row then
        { m with head :=
            { row := curr.row, list := (ColumnLinkedList.construct m.columns).add curr.list }
              :: h :: t }
      else
        { m with head :=
            h :: SparseMatrix.link_after (rowNode.construct curr.row m.columns) curr t } := by
  unfold SparseMatrix.add_row
  have hf : ¬ (SparseMatrix.add_existing curr m.head).2 = true :=
    fun hf => hnot ((SparseMatrix.add_existing_flag curr m.head).mp hf)
  rw [if_neg hf, hh]
  rfl

theorem SparseMatrix.add_row_dims (m : SparseMatrix) (curr : rowNode) :
    (m.add_row curr).rows = m.rows ∧ (m.add_row curr).columns = m.columns ∧
      (m.add_row curr).length = m.length := by
  by_cases hex : curr.row ∈ row_keys m.head
  · rw [SparseMatrix.add_row_of_existing hex]
    exact ⟨rfl, rfl, rfl⟩
  · cases hh : m.head with
    | nil =>
      rw [SparseMatrix.add_row_of_nil hh]
      exact ⟨rfl, rfl, rfl⟩
    | cons y ys =>
      rw [SparseMatrix.add_row_of_cons hh hex]
      split <;> exact ⟨rfl, rfl, rfl⟩

theorem SparseMatrix.row_keys_add_row (m : SparseMatrix) (curr : rowNode) :
    row_keys (m.add_row curr).head =
      if curr.row ∈ row_keys m.head then row_keys m.head
      else key_insert curr.row (row_keys m.head) := by
  by_cases hex : curr.row ∈ row_keys m.head
  · rw [SparseMatrix.add_row_of_existing hex, if_pos hex]
    exact SparseMatrix.row_keys_add_existing curr m.head
  · rw [if_neg hex]
    cases hh : m.head with
    | nil =>
      rw [SparseMatrix.add_row_of_nil hh]
      simp [row_keys, key_insert]
    | cons y ys =>
      rw [SparseMatrix.add_row_of_cons hh hex]
      rw [hh] at hex
      simp only [row_keys, List.map_cons, List.mem_cons, not_or] at hex
      have h1 : ¬ y.row = curr.row := fun e => hex.1 e.symm
      by_cases h2 : y.row > curr.row
      · rw [if_pos h2]
        simp [h1, h2, row_keys, key_insert]
      · rw [if_neg h2]
        have := SparseMatrix.row_keys_link_after (rowNode.construct curr.row m.columns) curr ys
          hex.2
        simp only [row_keys, List.map_cons, key_insert, h1, h2, if_false] at this ⊢
        rw [this]
        rfl

theorem SparseMatrix.row_sorted_add_row (m : SparseMatrix) (curr : rowNode)
    (hs : row_sorted m.head) : row_sorted (m.add_row curr).head := by
  unfold row_sorted
  rw [SparseMatrix.row_keys_add_row]
  split
  · exact hs
  · exact pairwise_key_insert _ _ hs

theorem SparseMatrix.stored_row_add_row (m : SparseMatrix) (curr : rowNode) (r : Int) :
    SparseMatrix.stored_row r (m.add_row curr).head =
      if r = curr.row then
        some (((SparseMatrix.stored_row r m.head).getD
          (ColumnLinkedList.construct m.columns)).add curr.list)
      else SparseMatrix.stored_row r m.head := by
  by_cases hex : curr.row ∈ row_keys m.head
  · rw [SparseMatrix.add_row_of_existing hex]
    show SparseMatrix.stored_row r (SparseMatrix.add_existing curr m.head).1 = _
    rw [SparseMatrix.stored_row_add_existing]
    by_cases hr : r = curr.row
    · subst hr
      simp only [if_true]
      obtain ⟨l, hl⟩ := SparseMatrix.stored_row_of_mem_keys _ _ hex
      rw [hl]
      rfl
    · simp only [hr, if_false]
  · cases hh : m.head with
    | nil =>
      rw [SparseMatrix.add_row_of_nil hh]
      by_cases hr : r = curr.row
      · simp [SparseMatrix.stored_row, hr]
      · have hr2 : ¬ curr.row = r := fun e => hr e.symm
        simp [SparseMatrix.stored_row, hr, hr2]
    | cons y ys =>
      rw [SparseMatrix.add_row_of_cons hh hex]
      rw [hh] at hex
      have hex2 := hex
      simp only [row_keys, List.map_cons, List.mem_cons, not_or] at hex2
      have h1 : ¬ y.row = curr.row := fun e => hex2.1 e.symm
      have hnone_ys : SparseMatrix.stored_row curr.row ys = none :=
        SparseMatrix.stored_row_of_not_mem _ _ hex2.2
      by_cases h2 : y.row > curr.row
      · rw [if_pos h2]
        by_cases hr : r = curr.row
        · subst hr
          simp only [SparseMatrix.stored_row, if_true, h1, if_false, hnone_ys,
            Option.getD_none]
        · have hr2 : ¬ curr.row = r := fun e => hr e.symm
          simp only [SparseMatrix.stored_row, hr2, if_false, hr]
      · rw [if_neg h2]
        have hla := SparseMatrix.stored_row_link_after (rowNode.construct curr.row m.columns)
          curr r ys hex2.2
        have hnode : (rowNode.construct curr.row m.columns).row = curr.row := rfl
        have hlist : (rowNode.construct curr.row m.columns).list =
          ColumnLinkedList.construct m.columns := rfl
        rw [hnode, hlist] at hla
        by_cases hr : r = curr.row
        · subst hr
          simp only [SparseMatrix.stored_row, h1, if_false, hla, if_true, hnone_ys,
            Option.getD_none]
        · simp only [SparseMatrix.stored_row, hla, hr, if_false]

theorem SparseMatrix.add_row_forall (P : rowNode → Prop) (m : SparseMatrix) (curr : rowNode)
    (hxs : ∀ n ∈ m.head, P n)
    (hnew : P { row := curr.row, list := (ColumnLinkedList.construct m.columns).add curr.list })
    (hupd : ∀ n ∈ m.head, P { n with list := n.list.add curr.list }) :
    ∀ n ∈ (m.add_row curr).head, P n := by
  by_cases hex : curr.row ∈ row_keys m.head
  · rw [SparseMatrix.add_row_of_existing hex]
    exact SparseMatrix.add_existing_forall P curr m.head hxs hupd
  · cases hh : m.head with
    | nil =>
      rw [SparseMatrix.add_row_of_nil hh]
      intro n hn
      simp only [List.mem_singleton] at hn
      exact hn ▸ hnew
    | cons y ys =>
      rw [SparseMatrix.add_row_of_cons hh hex]
      rw [hh] at hxs
      have hy := hxs y (List.mem_cons_self _ _)
      have hys : ∀ n ∈ ys, P n := fun n hn => hxs n (List.mem_cons_of_mem _ hn)
      intro n hn
      by_cases h2 : y.row > curr.row
      · rw [if_pos h2] at hn
        simp only [List.mem_cons] at hn
        rcases hn with hn | hn | hn
        · exact hn ▸ hnew
        · exact hn ▸ hy
        · exact hys n hn
      · rw [if_neg h2] at hn
        simp only [List.mem_cons] at hn
        rcases hn with hn | hn
        · exact hn ▸ hy
        · exact SparseMatrix.link_after_forall P _ curr ys hys hnew n hn

theorem SparseMatrix.add_row_valid (m : SparseMatrix) (curr : rowNode)
    (hc : curr.list.valid) (hm : m.valid) : (m.add_row curr).valid := by
  obtain ⟨hs, hrows⟩ := hm
  refine ⟨SparseMatrix.row_sorted_add_row m curr hs, ?_⟩
  rw [(SparseMatrix.add_row_dims m curr).2.1]
  apply SparseMatrix.add_row_forall
    (fun n => n.list.valid ∧ n.list.columns = m.columns) m curr hrows
  · exact ⟨ColumnLinkedList.row_add_valid _ _ hc (ColumnLinkedList.row_construct_valid _),
      ColumnLinkedList.add_columns _ _⟩
  · intro n hn
    exact ⟨ColumnLinkedList.row_add_valid _ _ hc (hrows n hn).1,
      (ColumnLinkedList.add_columns _ _).trans (hrows n hn).2⟩

theorem SparseMatrix.foldl_add_row_dims (os : List rowNode) (m : SparseMatrix) :
    (os.foldl SparseMatrix.add_row m).rows = m.rows ∧
      (os.foldl SparseMatrix.add_row m).columns = m.columns ∧
      (os.foldl SparseMatrix.add_row m).length = m.length := by
  induction os generalizing m with
  | nil => exact ⟨rfl, rfl, rfl⟩
  | cons o os ih =>
    rw [List.foldl_cons]
    obtain ⟨h1, h2, h3⟩ := ih (m.add_row o)
    obtain ⟨g1, g2, g3⟩ := SparseMatrix.add_row_dims m o
    exact ⟨h1.trans g1, h2.trans g2, h3.trans g3⟩

theorem SparseMatrix.foldl_add_row_valid (os : List rowNode) (m : SparseMatrix)
    (ho : ∀ n ∈ os, n.list.valid) (hm : m.valid) :
    (os.foldl SparseMatrix.add_row m).valid := by
  induction os generalizing m with
  | nil => exact hm
  | cons o os ih =>
    rw [List.foldl_cons]
    exact ih _ (fun n hn => ho n (List.mem_cons_of_mem _ hn))
      (SparseMatrix.add_row_valid m o (ho o (List.mem_cons_self _ _)) hm)

theorem SparseMatrix.add_dims (m other : SparseMatrix) :
    (m.add other).rows = m.rows ∧ (m.add other).columns = m.columns ∧
      (m.add other).length = m.length :=
  SparseMatrix.foldl_add_row_dims other.head m

theorem SparseMatrix.add_valid (m other : SparseMatrix) (ho : other.valid) (hm : m.valid) :
    (m.add other).valid :=
  SparseMatrix.foldl_add_row_valid other.head m (fun n hn => (ho.2 n hn).1) hm

theorem Reachable.valid {m : SparseMatrix} (h : Reachable m) : m.valid := by
  induction h with
  | construct rows columns => exact SparseMatrix.construct_valid rows columns
  | set_value m data row column _ hd ih => exact SparseMatrix.set_value_valid m data row column hd ih
  | add m other _ _ ihm iho => exact SparseMatrix.add_valid m other iho ihm

theorem SparseMatrix.stored_row_foldl_add_row (os : List rowNode) (m : SparseMatrix) (r : Int)
    (hs : row_sorted os) :
    SparseMatrix.stored_row r (os.foldl SparseMatrix.add_row m).head =
      match SparseMatrix.stored_row r os with
      | none => SparseMatrix.stored_row r m.head
      | some o =>
        some (((SparseMatrix.stored_row r m.head).getD
          (ColumnLinkedList.construct m.columns)).add o) := by
  induction os generalizing m with
  | nil => rfl
  | cons o os ih =>
    unfold row_sorted row_keys at hs
    rw [List.map_cons, List.pairwise_cons] at hs
    rw [List.foldl_cons, ih _ hs.2, SparseMatrix.stored_row_add_row,
      (SparseMatrix.add_row_dims m o).2.1]
    by_cases hr : r = o.row
    · subst hr
      have hnot : o.row ∉ row_keys os := by
        intro hmem
        have := hs.1 _ hmem
        omega
      simp only [SparseMatrix.stored_row, if_true,
        SparseMatrix.stored_row_of_not_mem _ _ hnot]
    · have hr2 : ¬ o.row = r := fun e => hr e.symm
      simp only [SparseMatrix.stored_row, hr, hr2, if_false]

theorem SparseMatrix.stored_row_add (m other : SparseMatrix) (r : Int)
    (hs : row_sorted other.head) :
    SparseMatrix.stored_row r (m.add other).head =
      match SparseMatrix.stored_row r other.head with
      | none => SparseMatrix.stored_row r m.head
      | some o =>
        some (((SparseMatrix.stored_row r m.head).getD
          (ColumnLinkedList.construct m.columns)).add o) :=
  SparseMatrix.stored_row_foldl_add_row other.head m r hs

theorem SparseMatrix.is_int_stored_value (m : SparseMatrix) (r c : Int) (hm : m.valid) :
    is_int (m.stored_value r c) := by
  unfold SparseMatrix.stored_value
  cases hsr : SparseMatrix.stored_row r m.head with
  | none => exact is_int_zero
  | some l =>
    obtain ⟨n, hn, _, hl⟩ := SparseMatrix.stored_row_mem r m.head l hsr
    have := (hm.2 n hn).1.2.1
    rw [hl] at this
    exact ColumnLinkedList.is_int_find_column c _ this

theorem SparseMatrix.stored_value_add (m other : SparseMatrix) (r c : Int)
    (hm : m.valid) (ho : other.valid) :
    (m.add other).stored_value r c =
      int_add (m.stored_value r c) (other.stored_value r c) := by
  have hmv := SparseMatrix.is_int_stored_value m r c hm
  unfold SparseMatrix.stored_value at hmv ⊢
  rw [SparseMatrix.stored_row_add m other r ho.1]
  cases hso : SparseMatrix.stored_row r other.head with
  | none =>
    dsimp only
    exact (int_add_zero_right hmv).symm
  | some o =>
    obtain ⟨n, hn, _, hl⟩ := SparseMatrix.stored_row_mem r other.head o hso
    have hov : o.valid := hl ▸ (ho.2 n hn).1
    dsimp only
    cases hsm : SparseMatrix.stored_row r m.head with
    | none =>
      simp only [Option.getD_none]
      rw [ColumnLinkedList.find_column_add _ _ _ hov (ColumnLinkedList.row_construct_valid _).2.1]
      rfl
    | some l =>
      obtain ⟨n2, hn2, _, hl2⟩ := SparseMatrix.stored_row_mem r m.head l hsm
      have hlv : l.valid := hl2 ▸ (hm.2 n2 hn2).1
      simp only [Option.getD_some]
      rw [ColumnLinkedList.find_column_add _ _ _ hov hlv.2.1]

/-! ## Matrix: the `length` counter under `set_value` -/

theorem SparseMatrix.insert_after_flag (data : Int) (node : rowNode) (column : Int)
    (xs : List rowNode) (hs : row_sorted xs) :
    (SparseMatrix.insert_after data node column xs).2 = true ↔ node.row ∉ row_keys xs := by
  induction xs with
  | nil => simp [SparseMatrix.insert_after, row_keys]
  | cons y ys ih =>
    unfold row_sorted row_keys at hs
    rw [List.map_cons, List.pairwise_cons] at hs
    unfold SparseMatrix.insert_after
    simp only [row_keys, List.map_cons, List.mem_cons, not_or] at ih ⊢
    by_cases h1 : y.row = node.row
    · rw [if_pos h1]
      simp [h1]
    · have h1s : ¬ node.row = y.row := fun e => h1 e.symm
      by_cases h2 : y.row > node.row
      · rw [if_neg h1, if_pos h2]
        have hnot : node.row ∉ List.map (fun n => n.row) ys := by
          intro hmem
          have := hs.1 _ hmem
          omega
        simp [h1s, hnot]
      · rw [if_neg h1, if_neg h2]
        simp only [h1s, not_false_eq_true, true_and]
        exact ih hs.2

theorem SparseMatrix.set_value_length (m : SparseMatrix) (data row column : Int)
    (hs : row_sorted m.head) :
    (m.set_value data row column).length =
      if row ∈ row_keys m.head then m.length else m.length + 1 := by
  unfold SparseMatrix.set_value
  cases hh : m.head with
  | nil =>
    rw [SparseMatrix.insert_sorted_of_nil hh]
    simp [SparseMatrix.insert_front, row_keys]
  | cons y ys =>
    rw [hh] at hs
    unfold row_sorted row_keys at hs
    rw [List.map_cons, List.pairwise_cons] at hs
    rw [SparseMatrix.insert_sorted_of_cons hh]
    have hnode : (rowNode.construct row m.columns).row = row := rfl
    rw [hnode]
    simp only [row_keys, List.map_cons, List.mem_cons]
    by_cases h2 : y.row > row
    · rw [if_pos h2]
      have h1s : ¬ row = y.row := by omega
      have hnot : row ∉ List.map (fun n => n.row) ys := by
        intro hmem
        have := hs.1 _ hmem
        omega
      simp [SparseMatrix.insert_front, h1s, hnot]
    · by_cases h1 : y.row = row
      · rw [if_neg h2, if_pos h1]
        simp [h1]
      · rw [if_neg h2, if_neg h1]
        have h1s : ¬ row = y.row := fun e => h1 e.symm
        have hfl := SparseMatrix.insert_after_flag data (rowNode.construct row m.columns)
          column ys hs.2
        rw [hnode] at hfl
        simp only [row_keys] at hfl
        by_cases hmem : row ∈ List.map (fun n => n.row) ys
        · have hb : ¬ (SparseMatrix.insert_after data (rowNode.construct row m.columns)
              column ys).2 = true := fun hb => (hfl.mp hb) hmem
          simp [hb, hmem]
        · have hb := hfl.mpr hmem
          simp [hb, hmem, h1s]

theorem SparseMatrix.mem_row_keys_set_value (m : SparseMatrix) (data row column x : Int) :
    x ∈ row_keys (m.set_value data row column).head ↔ x = row ∨ x ∈ row_keys m.head := by
  unfold SparseMatrix.set_value
  rw [SparseMatrix.row_keys_insert_sorted, mem_key_insert]
  rfl

theorem SparseMatrix.row_sorted_set_value (m : SparseMatrix) (data row column : Int)
    (hs : row_sorted m.head) : row_sorted (m.set_value data row column).head := by
  unfold row_sorted SparseMatrix.set_value
  rw [SparseMatrix.row_keys_insert_sorted]
  exact pairwise_key_insert _ _ hs

theorem SparseMatrix.get_value_eq (m : SparseMatrix) (r c : Int) :
    m.get_value r c =
      if r < m.length then
        match SparseMatrix.stored_row r m.head with
        | none => some 0
        | some l => l.get_value c
      else none := by
  unfold SparseMatrix.get_value
  rw [SparseMatrix.find_row_eq]

/-- After `set_value(v, r, c)` on a matrix whose stored rows are sorted and carry
the column count of the matrix, row `r` is stored, has that column count, and
holds `v` at column `c`. -/
theorem SparseMatrix.stored_row_after_set_value (m : SparseMatrix) (v r c : Int)
    (hs : row_sorted m.head) (hcols : ∀ n ∈ m.head, n.list.columns = m.columns) :
    ∃ l, SparseMatrix.stored_row r (m.set_value v r c).head = some l ∧
      l.columns = m.columns ∧ ColumnLinkedList.find_column c l.head = v := by
  refine ⟨((SparseMatrix.stored_row r m.head).getD
    (ColumnLinkedList.construct m.columns)).set_value v c, ?_, ?_, ?_⟩
  · rw [SparseMatrix.stored_row_set_value m v r c r hs, if_pos rfl]
  · rw [ColumnLinkedList.set_value_columns]
    cases hsr : SparseMatrix.stored_row r m.head with
    | none => rfl
    | some l =>
      obtain ⟨n, hn, _, hl⟩ := SparseMatrix.stored_row_mem r m.head l hsr
      rw [Option.getD_some, ← hl]
      exact hcols n hn
  · rw [ColumnLinkedList.find_column_set_value, if_pos rfl]

theorem SparseMatrix.columns_set_value_rows (m : SparseMatrix) (v r c : Int)
    (hcols : ∀ n ∈ m.head, n.list.columns = m.columns) :
    ∀ n ∈ (m.set_value v r c).head, n.list.columns = (m.set_value v r c).columns := by
  rw [(SparseMatrix.set_value_dims m v r c).2]
  apply SparseMatrix.set_value_forall (fun n => n.list.columns = m.columns) m v r c hcols
  · exact ColumnLinkedList.set_value_columns _ _ _
  · intro n hn
    exact (ColumnLinkedList.set_value_columns _ _ _).trans (hcols n hn)

/-! ## Claims C1 to C9 -/

/-- C1 (evaluation at the failing input): on a fresh `M(3,3)`, position `(2, 0)`
is inside the declared dimensions and `set_value(5, 2, 0)` stores `5` there, but
`get_value(2, 0)` does not return `5`: one row is stored, so `length` is `1` and
`assert(row < length)` fails for row `2`.  A further `set_value(9, 2, 0)`
overwrites the stored value and the read fails in the same way. -/
theorem set_then_get_row_check_aborts :
    Reachable ((SparseMatrix.construct 3 3).set_value 5 2 0) ∧
      (2 < ((SparseMatrix.construct 3 3).set_value 5 2 0).rows ∧
        0 < ((SparseMatrix.construct 3 3).set_value 5 2 0).columns) ∧
      ((SparseMatrix.construct 3 3).set_value 5 2 0).stored_value 2 0 = 5 ∧
      ((SparseMatrix.construct 3 3).set_value 5 2 0).length = 1 ∧
      ((SparseMatrix.construct 3 3).set_value 5 2 0).get_value 2 0 = none ∧
      (((SparseMatrix.construct 3 3).set_value 5 2 0).set_value 9 2 0).stored_value 2 0 = 9 ∧
      (((SparseMatrix.construct 3 3).set_value 5 2 0).set_value 9 2 0).get_value 2 0 = none :=
  ⟨Reachable.set_value _ 5 2 0 (Reachable.construct 3 3) (by decide), by decide, by decide,
    by decide, by decide, by decide, by decide⟩

/-- C2 (evaluation at the failing input): on a freshly constructed 3 by 3 matrix
`get_value(0, 0)` does not return `0`: the `length` counter is `0`, so
`assert(row < length)` fails. -/
theorem fresh_matrix_get_value_aborts :
    (SparseMatrix.construct 3 3).get_value 0 0 = none ∧
      (SparseMatrix.construct 3 3).stored_value 0 0 = 0 :=
  ⟨by decide, by decide⟩

/-- C3 (evaluation at the failing input): with `A(2,2)` after `set_value(1,0,0)`
and `B(2,2)` after `set_value(4,0,0)`, `set_value(2,1,1)`, the call `A.add(B)`
stores `5` at `(0,0)` and `2` at `(1,1)` and `A.get_value(0,0)` returns `5`, but
`A.get_value(1,1)` fails: `add` linked row 1 in without counting it, so `length`
is still `1` and `assert(row < length)` fails. -/
theorem add_scenario_get_value_aborts :
    (((SparseMatrix.construct 2 2).set_value 1 0 0).add
        (((SparseMatrix.construct 2 2).set_value 4 0 0).set_value 2 1 1)).get_value 0 0
      = some 5 ∧
    (((SparseMatrix.construct 2 2).set_value 1 0 0).add
        (((SparseMatrix.construct 2 2).set_value 4 0 0).set_value 2 1 1)).get_value 1 1
      = none ∧
    (((SparseMatrix.construct 2 2).set_value 1 0 0).add
        (((SparseMatrix.construct 2 2).set_value 4 0 0).set_value 2 1 1)).stored_value 1 1
      = 2 ∧
    (((SparseMatrix.construct 2 2).set_value 1 0 0).add
        (((SparseMatrix.construct 2 2).set_value 4 0 0).set_value 2 1 1)).length = 1 :=
  ⟨by decide, by decide, by decide, by decide⟩

/-- C4: in every matrix reachable by `set_value` and `add` calls (any order, any
integer indices) the row sequence is strictly ascending by row index, so no two
stored rows share an index, and the entry sequence of every stored row is
strictly ascending by column, so no two entries of a row share a column. -/
theorem reachable_sorted (m : SparseMatrix) (hm : Reachable m) :
    row_sorted m.head ∧ (row_keys m.head).Nodup ∧
      ∀ n ∈ m.head, col_sorted n.list.head ∧ (column_keys n.list.head).Nodup := by
  have hv := hm.valid
  refine ⟨hv.1, ?_, ?_⟩
  · exact List.Pairwise.imp (fun h => Int.ne_of_lt h) hv.1
  · intro n hn
    exact ⟨(hv.2 n hn).1.1, List.Pairwise.imp (fun h => Int.ne_of_lt h) (hv.2 n hn).1.1⟩

/-- Witness of C4: setting row 5, then row 2, then row 2 again leaves the row
sequence `[2, 5]`, with row 2 holding the value written last. -/
theorem reachable_sorted_witness :
    row_keys ((((SparseMatrix.construct 9 9).set_value 1 5 0).set_value 2 2 0).set_value
        3 2 0).head = [2, 5] ∧
      ((((SparseMatrix.construct 9 9).set_value 1 5 0).set_value 2 2 0).set_value
        3 2 0).stored_value 2 0 = 3 ∧
      (row_sorted ((((SparseMatrix.construct 9 9).set_value 1 5 0).set_value 2 2 0).set_value
          3 2 0).head ∧
        (row_keys ((((SparseMatrix.construct 9 9).set_value 1 5 0).set_value 2 2 0).set_value
          3 2 0).head).Nodup ∧
        ∀ n ∈ ((((SparseMatrix.construct 9 9).set_value 1 5 0).set_value 2 2 0).set_value
          3 2 0).head, col_sorted n.list.head ∧ (column_keys n.list.head).Nodup) :=
  ⟨by decide, by decide,
    reachable_sorted _
      (Reachable.set_value _ 3 2 0
        (Reachable.set_value _ 2 2 0
          (Reachable.set_value _ 1 5 0 (Reachable.construct 9 9) (by decide)) (by decide))
        (by decide))⟩

/-- C5: for rows `R` and `O` reachable by `set_value` and `add` calls and every
column `c` below the column count of both, after `R.add(O)` the read
`R.get_value(c)` returns the `int` sum of the old `R.get_value(c)` and
`O.get_value(c)` (the exact sum whenever it fits in an `int`).  The row stores
an entry at `c` exactly when `R` or `O` did, still at most one for each column
(an entry of both is added in place), and where only `O` had an entry the value
read is the one of `O`.  The receiver is the only state `add` returns: `O` is
an argument that is only read. -/
theorem row_add_get_value (R O : ColumnLinkedList) (c : Int) (hR : RowReachable R)
    (hO : RowReachable O) (hcR : c < R.columns) (hcO : c < O.columns) :
    ∃ a b, R.get_value c = some a ∧ O.get_value c = some b ∧
      (R.add O).get_value c = some (int_add a b) ∧
      (is_int (a + b) → (R.add O).get_value c = some (a + b)) ∧
      (c ∈ column_keys (R.add O).head ↔ c ∈ column_keys R.head ∨ c ∈ column_keys O.head) ∧
      col_sorted (R.add O).head ∧
      (c ∉ column_keys R.head → (R.add O).get_value c = some b) := by
  have hRv := hR.row_valid
  have hOv := hO.row_valid
  have hsum : (R.add O).get_value c =
      some (int_add (ColumnLinkedList.find_column c R.head)
        (ColumnLinkedList.find_column c O.head)) := by
    unfold ColumnLinkedList.get_value
    rw [ColumnLinkedList.add_columns, if_pos hcR,
      ColumnLinkedList.find_column_add R O c hOv hRv.2.1]
  refine ⟨ColumnLinkedList.find_column c R.head, ColumnLinkedList.find_column c O.head,
    ?_, ?_, hsum, ?_, ?_, ?_, ?_⟩
  · unfold ColumnLinkedList.get_value
    rw [if_pos hcR]
  · unfold ColumnLinkedList.get_value
    rw [if_pos hcO]
  · intro hfit
    rw [hsum, int_add_exact hfit]
  · exact ColumnLinkedList.mem_column_keys_foldl_add_node O.head R c
  · exact (ColumnLinkedList.row_add_valid R O hOv hRv).1
  · intro hnot
    rw [hsum, ColumnLinkedList.find_column_of_not_mem c R.head hnot,
      int_add_zero_left (ColumnLinkedList.is_int_find_column c O.head hOv.2.1)]

/-- Witness of C5: `R` of 4 columns holding `3` at column 1, `O` of 4 columns
holding `4` at column 1 and `6` at column 2, read at column 1. -/
theorem row_add_get_value_witness :
    ∃ a b, ((ColumnLinkedList.construct 4).set_value 3 1).get_value 1 = some a ∧
      (((ColumnLinkedList.construct 4).set_value 4 1).set_value 6 2).get_value 1 = some b ∧
      (((ColumnLinkedList.construct 4).set_value 3 1).add
        (((ColumnLinkedList.construct 4).set_value 4 1).set_value 6 2)).get_value 1
          = some (int_add a b) ∧
      (is_int (a + b) → (((ColumnLinkedList.construct 4).set_value 3 1).add
        (((ColumnLinkedList.construct 4).set_value 4 1).set_value 6 2)).get_value 1
          = some (a + b)) ∧
      (1 ∈ column_keys (((ColumnLinkedList.construct 4).set_value 3 1).add
          (((ColumnLinkedList.construct 4).set_value 4 1).set_value 6 2)).head ↔
        1 ∈ column_keys ((ColumnLinkedList.construct 4).set_value 3 1).head ∨
          1 ∈ column_keys (((ColumnLinkedList.construct 4).set_value 4 1).set_value 6 2).head) ∧
      col_sorted (((ColumnLinkedList.construct 4).set_value 3 1).add
        (((ColumnLinkedList.construct 4).set_value 4 1).set_value 6 2)).head ∧
      (1 ∉ column_keys ((ColumnLinkedList.construct 4).set_value 3 1).head →
        (((ColumnLinkedList.construct 4).set_value 3 1).add
          (((ColumnLinkedList.construct 4).set_value 4 1).set_value 6 2)).get_value 1 = some b) :=
  row_add_get_value _ _ 1
    (RowReachable.set_value _ 3 1 (RowReachable.construct 4) (by decide))
    (RowReachable.set_value _ 6 2
      (RowReachable.set_value _ 4 1 (RowReachable.construct 4) (by decide)) (by decide))
    (by decide) (by decide)

/-- C6: for every row reachable by `set_value` and `add` calls and every integer
column `c`, `get_value(c)` fails exactly when `c >= columnCount`; otherwise it
returns the value of the stored entry at column `c`, or `0` when the row stores
no entry at that column. -/
theorem row_get_value_spec (l : ColumnLinkedList) (c : Int) (hl : RowReachable l) :
    (l.get_value c = none ↔ l.columns ≤ c) ∧
      (c < l.columns →
        (∀ n ∈ l.head, n.columns = c → l.get_value c = some n.data) ∧
        (c ∉ column_keys l.head → l.get_value c = some 0)) := by
  have hv := hl.row_valid
  constructor
  · unfold ColumnLinkedList.get_value
    by_cases hc : c < l.columns
    · rw [if_pos hc]
      constructor
      · intro h
        cases h
      · intro h
        omega
    · rw [if_neg hc]
      constructor
      · intro _
        omega
      · intro _
        rfl
  · intro hc
    unfold ColumnLinkedList.get_value
    rw [if_pos hc]
    constructor
    · intro n hn hnc
      rw [← hnc, ColumnLinkedList.find_column_of_mem l.head hv.1 n hn]
    · intro hnot
      rw [ColumnLinkedList.find_column_of_not_mem c l.head hnot]

/-- Witness of C6: the row of 3 columns holding `5` at column 1 and `7` at
column 0, read at column 1. -/
theorem row_get_value_spec_witness :
    (((ColumnLinkedList.construct 3).set_value 5 1).set_value 7 0).get_value 1 = some 5 ∧
    ((((ColumnLinkedList.construct 3).set_value 5 1).set_value 7 0).get_value 1 = none ↔
        (((ColumnLinkedList.construct 3).set_value 5 1).set_value 7 0).columns ≤ 1) ∧
      (1 < (((ColumnLinkedList.construct 3).set_value 5 1).set_value 7 0).columns →
        (∀ n ∈ (((ColumnLinkedList.construct 3).set_value 5 1).set_value 7 0).head,
          n.columns = 1 →
            (((ColumnLinkedList.construct 3).set_value 5 1).set_value 7 0).get_value 1
              = some n.data) ∧
        (1 ∉ column_keys (((ColumnLinkedList.construct 3).set_value 5 1).set_value 7 0).head →
          (((ColumnLinkedList.construct 3).set_value 5 1).set_value 7 0).get_value 1 = some 0)) :=
  ⟨by decide,
    row_get_value_spec _ 1
      (RowReachable.set_value _ 7 0
        (RowReachable.set_value _ 5 1 (RowReachable.construct 3) (by decide)) (by decide))⟩

/-- Counterexample to C7 as stated: in the 3 by 3 matrix that stores only row 1,
`get_value(0, 7)` returns `0` although `7 >= columnCount`: row 0 is not
stored, so no row is asked and the column is never checked. -/
theorem get_value_unstored_row_ignores_column :
    Reachable ((SparseMatrix.construct 3 3).set_value 1 1 0) ∧
      ((SparseMatrix.construct 3 3).set_value 1 1 0).columns ≤ 7 ∧
      ((SparseMatrix.construct 3 3).set_value 1 1 0).get_value 0 7 = some 0 :=
  ⟨Reachable.set_value _ 1 1 0 (Reachable.construct 3 3) (by decide), by decide, by decide⟩

/-- C7 (amended): for every reachable matrix, every row `r` and every column
`c >= columnCount`: when row `r` is stored, `get_value(r, c)` ends in a
contract violation; when row `r` is not stored, the column is not checked and
`get_value(r, c)` returns `0` if the row check passes.  In no case does it
return a value other than `0`. -/
theorem get_value_column_out_of_range (m : SparseMatrix) (r c : Int) (hm : Reachable m)
    (hc : m.columns ≤ c) :
    (r ∈ row_keys m.head → m.get_value r c = none) ∧
      (r ∉ row_keys m.head → r < m.length → m.get_value r c = some 0) ∧
      (m.get_value r c = none ∨ m.get_value r c = some 0) := by
  have hv := hm.valid
  have hstored : r ∈ row_keys m.head → m.get_value r c = none := by
    intro hmem
    obtain ⟨l, hl⟩ := SparseMatrix.stored_row_of_mem_keys r m.head hmem
    obtain ⟨n, hn, _, hnl⟩ := SparseMatrix.stored_row_mem r m.head l hl
    have hcols : l.columns = m.columns := hnl ▸ (hv.2 n hn).2
    rw [SparseMatrix.get_value_eq, hl]
    dsimp only
    unfold ColumnLinkedList.get_value
    have hnc : ¬ c < l.columns := by omega
    rw [if_neg hnc]
    split <;> rfl
  have habsent : r ∉ row_keys m.head → r < m.length → m.get_value r c = some 0 := by
    intro hnot hr
    rw [SparseMatrix.get_value_eq, if_pos hr, SparseMatrix.stored_row_of_not_mem r m.head hnot]
  refine ⟨hstored, habsent, ?_⟩
  by_cases hmem : r ∈ row_keys m.head
  · exact Or.inl (hstored hmem)
  · by_cases hr : r < m.length
    · exact Or.inr (habsent hmem hr)
    · left
      unfold SparseMatrix.get_value
      rw [if_neg hr]

/-- Witness of C7 (amended): the 3 by 3 matrix storing only row 1, read at the
stored row 1 and column 7. -/
theorem get_value_column_out_of_range_witness :
    ((SparseMatrix.construct 3 3).set_value 1 1 0).get_value 0 7 = some 0 ∧
    ((SparseMatrix.construct 3 3).set_value 1 0 0).get_value 0 7 = none ∧
    ((0 ∈ row_keys ((SparseMatrix.construct 3 3).set_value 1 0 0).head →
        ((SparseMatrix.construct 3 3).set_value 1 0 0).get_value 0 7 = none) ∧
      (0 ∉ row_keys ((SparseMatrix.construct 3 3).set_value 1 0 0).head →
        0 < ((SparseMatrix.construct 3 3).set_value 1 0 0).length →
        ((SparseMatrix.construct 3 3).set_value 1 0 0).get_value 0 7 = some 0) ∧
      (((SparseMatrix.construct 3 3).set_value 1 0 0).get_value 0 7 = none ∨
        ((SparseMatrix.construct 3 3).set_value 1 0 0).get_value 0 7 = some 0)) :=
  ⟨by decide, by decide,
    get_value_column_out_of_range _ 0 7
      (Reachable.set_value _ 1 0 0 (Reachable.construct 3 3) (by decide)) (by decide)⟩

/-- C8 (evaluation at the failing input): adding `B(2,2)`, which stores `2` at
`(1,1)`, into a fresh `A(2,2)` links one row into `A` and leaves the `length`
counter at `0`: the counter is not the number of stored rows, and
`get_value(0, 0)` fails its row check although `0` is below the number of
stored rows. -/
theorem add_leaves_length_behind :
    Reachable ((SparseMatrix.construct 2 2).add ((SparseMatrix.construct 2 2).set_value 2 1 1)) ∧
      ((SparseMatrix.construct 2 2).add
        ((SparseMatrix.construct 2 2).set_value 2 1 1)).head.length = 1 ∧
      ((SparseMatrix.construct 2 2).add
        ((SparseMatrix.construct 2 2).set_value 2 1 1)).length = 0 ∧
      ((SparseMatrix.construct 2 2).add
        ((SparseMatrix.construct 2 2).set_value 2 1 1)).get_value 0 0 = none :=
  ⟨Reachable.add _ _ (Reachable.construct 2 2)
      (Reachable.set_value _ 2 1 1 (Reachable.construct 2 2) (by decide)),
    by decide, by decide, by decide⟩

theorem wrap_int_add_twice (a b : Int) :
    int_add (int_add a b) b = wrap_int (a + 2 * b) := by
  unfold int_add wrap_int
  omega

theorem int_add_ne_self {x b : Int} (hb : is_int b) (hne : b ≠ 0) : int_add x b ≠ x := by
  unfold is_int INT_MIN INT_MAX at hb
  unfold int_add wrap_int
  omega

/-- C9: `add` is not idempotent.  For all reachable matrices `A` and `B` and every
position `(r, c)`, after `A.add(B)` twice the logical value of `A` at `(r, c)`
(the value of the stored entry, or `0` when none is stored) is the old value of
`A` plus twice the value of `B`, in `int` arithmetic (the exact number whenever it
fits in an `int`); and whenever `B` stores a non-zero value at some position, the
state after two calls differs from the state after one call. -/
theorem add_twice_doubles (a b : SparseMatrix) (r c : Int) (ha : Reachable a)
    (hb : Reachable b) :
    ((a.add b).add b).stored_value r c =
        int_add (int_add (a.stored_value r c) (b.stored_value r c)) (b.stored_value r c) ∧
      ((a.add b).add b).stored_value r c =
        wrap_int (a.stored_value r c + 2 * b.stored_value r c) ∧
      (is_int (a.stored_value r c + 2 * b.stored_value r c) →
        ((a.add b).add b).stored_value r c = a.stored_value r c + 2 * b.stored_value r c) ∧
      (b.stored_value r c ≠ 0 → (a.add b).add b ≠ a.add b) := by
  have hav := ha.valid
  have hbv := hb.valid
  have habv := SparseMatrix.add_valid a b hbv hav
  have h1 : ((a.add b).add b).stored_value r c =
      int_add (int_add (a.stored_value r c) (b.stored_value r c)) (b.stored_value r c) := by
    rw [SparseMatrix.stored_value_add _ _ _ _ habv hbv,
      SparseMatrix.stored_value_add _ _ _ _ hav hbv]
  refine ⟨h1, ?_, ?_, ?_⟩
  · rw [h1, wrap_int_add_twice]
  · intro hfit
    rw [h1, wrap_int_add_twice, wrap_int_of_is_int hfit]
  · intro hne heq
    have h2 : ((a.add b).add b).stored_value r c = (a.add b).stored_value r c := by
      rw [heq]
    rw [SparseMatrix.stored_value_add _ _ _ _ habv hbv] at h2
    exact int_add_ne_self (SparseMatrix.is_int_stored_value _ r c hbv) hne h2

/-- Witness of C9: `A(2,2)` holding `1` at `(0,0)` and `B(2,2)` holding `4` at
`(0,0)`: one call gives `5`, two calls give `9`, and the two states differ. -/
theorem add_twice_doubles_witness :
    (((SparseMatrix.construct 2 2).set_value 1 0 0).add
        ((SparseMatrix.construct 2 2).set_value 4 0 0)).stored_value 0 0 = 5 ∧
    ((((SparseMatrix.construct 2 2).set_value 1 0 0).add
        ((SparseMatrix.construct 2 2).set_value 4 0 0)).add
        ((SparseMatrix.construct 2 2).set_value 4 0 0)).stored_value 0 0 = 9 ∧
    ((((SparseMatrix.construct 2 2).set_value 1 0 0).add
        ((SparseMatrix.construct 2 2).set_value 4 0 0)).add
        ((SparseMatrix.construct 2 2).set_value 4 0 0)) ≠
      (((SparseMatrix.construct 2 2).set_value 1 0 0).add
        ((SparseMatrix.construct 2 2).set_value 4 0 0)) :=
  ⟨by decide, by decide,
    (add_twice_doubles ((SparseMatrix.construct 2 2).set_value 1 0 0)
      ((SparseMatrix.construct 2 2).set_value 4 0 0) 0 0
      (Reachable.set_value _ 1 0 0 (Reachable.construct 2 2) (by decide))
      (Reachable.set_value _ 4 0 0 (Reachable.construct 2 2) (by decide))).2.2.2 (by decide)⟩

/-! ## Dense printing -/

theorem ColumnLinkedList.print_array_loop_done (columns : Int) (fuel : Nat) (count : Int)
    (curr : List ColumnNode) (h : count = columns) :
    ColumnLinkedList.print_array_loop columns fuel count curr = some [] := by
  unfold ColumnLinkedList.print_array_loop
  rw [if_pos h]

theorem ColumnLinkedList.print_array_loop_hit (columns : Int) (fuel : Nat) (count : Int)
    (n : ColumnNode) (rest : List ColumnNode) (h : count ≠ columns) (hn : n.columns = count) :
    ColumnLinkedList.print_array_loop columns (fuel + 1) count (n :: rest) =
      (ColumnLinkedList.print_array_loop columns fuel (count + 1) rest).map
        (fun out => n.data :: out) := by
  rw [ColumnLinkedList.print_array_loop, if_neg h, if_pos hn]

theorem ColumnLinkedList.print_array_loop_miss (columns : Int) (fuel : Nat) (count : Int)
    (n : ColumnNode) (rest : List ColumnNode) (h : count ≠ columns) (hn : n.columns ≠ count) :
    ColumnLinkedList.print_array_loop columns (fuel + 1) count (n :: rest) =
      (ColumnLinkedList.print_array_loop columns fuel (count + 1) (n :: rest)).map
        (fun out => 0 :: out) := by
  rw [ColumnLinkedList.print_array_loop, if_neg h, if_neg hn]

theorem ColumnLinkedList.print_array_loop_nil (columns : Int) (fuel : Nat) (count : Int)
    (h : count ≠ columns) :
    ColumnLinkedList.print_array_loop columns (fuel + 1) count [] =
      (ColumnLinkedList.print_array_loop columns fuel (count + 1) []).map
        (fun out => 0 :: out) := by
  rw [ColumnLinkedList.print_array_loop, if_neg h]

theorem dense_from_cons_lt (x : ColumnNode) (rest : List ColumnNode) (n : Nat) (count : Int)
    (h : x.columns < count) : dense_from count n (x :: rest) = dense_from count n rest := by
  induction n generalizing count with
  | zero => rfl
  | succ n ih =>
    have hx : ¬ x.columns = count := by omega
    simp only [dense_from, ColumnLinkedList.find_column, hx, if_false]
    rw [ih (count + 1) (by omega)]

theorem dense_from_getElem (curr : List ColumnNode) (n : Nat) (count : Int) (j : Nat)
    (hj : j < n) :
    (dense_from count n curr)[j]? = some (ColumnLinkedList.find_column (count + j) curr) := by
  induction n generalizing count j with
  | zero => omega
  | succ n ih =>
    cases j with
    | zero => simp [dense_from]
    | succ j =>
      simp only [dense_from, List.getElem?_cons_succ]
      rw [ih (count + 1) j (by omega)]
      congr 2
      push_cast
      omega

theorem dense_from_length (curr : List ColumnNode) (n : Nat) (count : Int) :
    (dense_from count n curr).length = n := by
  induction n generalizing count with
  | zero => rfl
  | succ n ih => simp [dense_from, ih]

theorem ColumnLinkedList.print_array_loop_eq (columns : Int) (n : Nat) (fuel : Nat)
    (count : Int) (curr : List ColumnNode) (hn : count + n = columns) (hf : n ≤ fuel)
    (hs : col_sorted curr) (hk : ∀ k ∈ column_keys curr, count ≤ k) :
    ColumnLinkedList.print_array_loop columns fuel count curr =
      some (dense_from count n curr) := by
  induction n generalizing fuel count curr with
  | zero =>
    rw [ColumnLinkedList.print_array_loop_done _ _ _ _ (by omega)]
    rfl
  | succ n ih =>
    have hne : count ≠ columns := by omega
    obtain ⟨f, rfl⟩ : ∃ f, fuel = f + 1 := ⟨fuel - 1, by omega⟩
    cases curr with
    | nil =>
      rw [ColumnLinkedList.print_array_loop_nil _ _ _ hne,
        ih f (count + 1) [] (by omega) (by omega) hs (by simp [column_keys])]
      rfl
    | cons x rest =>
      unfold col_sorted column_keys at hs
      rw [List.map_cons, List.pairwise_cons] at hs
      by_cases hx : x.columns = count
      · have hrest : ∀ k ∈ column_keys rest, count + 1 ≤ k := by
          intro k hmem
          have := hs.1 k hmem
          omega
        rw [ColumnLinkedList.print_array_loop_hit _ _ _ _ _ hne hx,
          ih f (count + 1) rest (by omega) (by omega) hs.2 hrest]
        simp only [Option.map_some', dense_from, ColumnLinkedList.find_column, hx, if_true]
        rw [dense_from_cons_lt x rest n (count + 1) (by omega)]
      · have hxk : count ≤ x.columns := hk _ (by simp [column_keys])
        have hall : ∀ k ∈ column_keys (x :: rest), count + 1 ≤ k := by
          intro k hmem
          simp only [column_keys, List.map_cons, List.mem_cons] at hmem
          rcases hmem with hmem | hmem
          · omega
          · have := hs.1 k hmem
            omega
        have hnot : count ∉ column_keys (x :: rest) := by
          intro hmem
          have := hall count hmem
          omega
        have hsx : col_sorted (x :: rest) := by
          unfold col_sorted column_keys
          rw [List.map_cons, List.pairwise_cons]
          exact hs
        rw [ColumnLinkedList.print_array_loop_miss _ _ _ _ _ hne hx,
          ih f (count + 1) (x :: rest) (by omega) (by omega) hsx hall]
        simp only [Option.map_some', dense_from]
        rw [ColumnLinkedList.find_column_of_not_mem count (x :: rest) hnot]

theorem SparseMatrix.print_zeros_loop_eq (columns : Int) (n : Nat) (fuel : Nat) (cnt : Int)
    (hn : cnt + n = columns) (hf : n ≤ fuel) :
    SparseMatrix.print_zeros_loop columns fuel cnt = some (dense_from cnt n []) := by
  induction n generalizing fuel cnt with
  | zero =>
    unfold SparseMatrix.print_zeros_loop
    rw [if_pos (by omega)]
    rfl
  | succ n ih =>
    have hne : cnt ≠ columns := by omega
    obtain ⟨f, rfl⟩ : ∃ f, fuel = f + 1 := ⟨fuel - 1, by omega⟩
    rw [SparseMatrix.print_zeros_loop, if_neg hne, ih f (cnt + 1) (by omega) (by omega)]
    rfl

theorem SparseMatrix.row_entries_cons_lt (x : rowNode) (rest : List rowNode) (count : Int)
    (h : x.row < count) :
    SparseMatrix.row_entries count (x :: rest) = SparseMatrix.row_entries count rest := by
  have hx : ¬ x.row = count := by omega
  simp only [SparseMatrix.row_entries, SparseMatrix.stored_row, hx, if_false]

theorem grid_from_cons_lt (columns : Nat) (x : rowNode) (rest : List rowNode) (n : Nat)
    (count : Int) (h : x.row < count) :
    grid_from columns count n (x :: rest) = grid_from columns count n rest := by
  induction n generalizing count with
  | zero => rfl
  | succ n ih =>
    simp only [grid_from]
    rw [ih (count + 1) (by omega), SparseMatrix.row_entries_cons_lt x rest count h]

theorem grid_from_getElem (columns : Nat) (curr : List rowNode) (n : Nat) (count : Int)
    (j : Nat) (hj : j < n) :
    (grid_from columns count n curr)[j]? =
      some (dense_from 0 columns (SparseMatrix.row_entries (count + j) curr)) := by
  induction n generalizing count j with
  | zero => omega
  | succ n ih =>
    cases j with
    | zero => simp [grid_from]
    | succ j =>
      simp only [grid_from, List.getElem?_cons_succ]
      rw [ih (count + 1) j (by omega)]
      congr 3
      push_cast
      omega

theorem grid_from_length (columns : Nat) (curr : List rowNode) (n : Nat) (count : Int) :
    (grid_from columns count n curr).length = n := by
  induction n generalizing count with
  | zero => rfl
  | succ n ih => simp [grid_from, ih]

theorem SparseMatrix.print_matrix_loop_done (rows columns : Int) (inner fuel : Nat)
    (count : Int) (curr : List rowNode) (h : count = rows) :
    SparseMatrix.print_matrix_loop rows columns inner fuel count curr = some [] := by
  unfold SparseMatrix.print_matrix_loop
  rw [if_pos h]

theorem SparseMatrix.print_matrix_loop_hit (rows columns : Int) (inner fuel : Nat)
    (count : Int) (n : rowNode) (rest : List rowNode) (h : count ≠ rows)
    (hn : n.row = count) :
    SparseMatrix.print_matrix_loop rows columns inner (fuel + 1) count (n :: rest) =
      (n.list.print_array inner).bind (fun line =>
        (SparseMatrix.print_matrix_loop rows columns inner fuel (count + 1) rest).map
          (fun out => line :: out)) := by
  rw [SparseMatrix.print_matrix_loop, if_neg h, if_pos hn]

theorem SparseMatrix.print_matrix_loop_miss (rows columns : Int) (inner fuel : Nat)
    (count : Int) (n : rowNode) (rest : List rowNode) (h : count ≠ rows)
    (hn : n.row ≠ count) :
    SparseMatrix.print_matrix_loop rows columns inner (fuel + 1) count (n :: rest) =
      (SparseMatrix.print_zeros_loop columns inner 0).bind (fun line =>
        (SparseMatrix.print_matrix_loop rows columns inner fuel (count + 1) (n :: rest)).map
          (fun out => line :: out)) := by
  rw [SparseMatrix.print_matrix_loop, if_neg h, if_neg hn]

theorem SparseMatrix.print_matrix_loop_nil (rows columns : Int) (inner fuel : Nat)
    (count : Int) (h : count ≠ rows) :
    SparseMatrix.print_matrix_loop rows columns inner (fuel + 1) count [] =
      (SparseMatrix.print_zeros_loop columns inner 0).bind (fun line =>
        (SparseMatrix.print_matrix_loop rows columns inner fuel (count + 1) []).map
          (fun out => line :: out)) := by
  rw [SparseMatrix.print_matrix_loop, if_neg h]

theorem SparseMatrix.row_entries_of_not_mem (r : Int) (xs : List rowNode)
    (h : r ∉ row_keys xs) : SparseMatrix.row_entries r xs = [] := by
  unfold SparseMatrix.row_entries
  rw [SparseMatrix.stored_row_of_not_mem r xs h]

theorem SparseMatrix.print_matrix_loop_eq (rows columns : Int) (cn inner : Nat)
    (hcn : (cn : Int) = columns) (hinner : cn ≤ inner) (n : Nat) (fuel : Nat) (count : Int)
    (curr : List rowNode) (hn : count + n = rows) (hf : n ≤ fuel) (hs : row_sorted curr)
    (hk : ∀ k ∈ row_keys curr, count ≤ k)
    (hrows : ∀ x ∈ curr, x.list.columns = columns ∧ col_sorted x.list.head ∧
      ∀ k ∈ column_keys x.list.head, 0 ≤ k) :
    SparseMatrix.print_matrix_loop rows columns inner fuel count curr =
      some (grid_from cn count n curr) := by
  have hzeros : SparseMatrix.print_zeros_loop columns inner 0 = some (dense_from 0 cn []) :=
    SparseMatrix.print_zeros_loop_eq columns cn inner 0 (by omega) hinner
  induction n generalizing fuel count curr with
  | zero =>
    rw [SparseMatrix.print_matrix_loop_done _ _ _ _ _ _ (by omega)]
    rfl
  | succ n ih =>
    have hne : count ≠ rows := by omega
    obtain ⟨f, rfl⟩ : ∃ f, fuel = f + 1 := ⟨fuel - 1, by omega⟩
    cases curr with
    | nil =>
      rw [SparseMatrix.print_matrix_loop_nil _ _ _ _ _ hne, hzeros,
        ih f (count + 1) [] (by omega) (by omega) hs (by simp [row_keys])
          (by intro x hx; cases hx)]
      rfl
    | cons x rest =>
      have hx0 := hrows x (List.mem_cons_self _ _)
      have hrest0 : ∀ y ∈ rest, y.list.columns = columns ∧ col_sorted y.list.head ∧
          ∀ k ∈ column_keys y.list.head, 0 ≤ k :=
        fun y hy => hrows y (List.mem_cons_of_mem _ hy)
      unfold row_sorted row_keys at hs
      rw [List.map_cons, List.pairwise_cons] at hs
      by_cases hx : x.row = count
      · have hrest : ∀ k ∈ row_keys rest, count + 1 ≤ k := by
          intro k hmem
          have := hs.1 k hmem
          omega
        have hline : x.list.print_array inner = some (dense_from 0 cn x.list.head) := by
          unfold ColumnLinkedList.print_array
          exact ColumnLinkedList.print_array_loop_eq x.list.columns cn inner 0 x.list.head
            (by omega) hinner hx0.2.1 hx0.2.2
        rw [SparseMatrix.print_matrix_loop_hit _ _ _ _ _ _ _ hne hx, hline,
          ih f (count + 1) rest (by omega) (by omega) hs.2 hrest hrest0]
        simp only [Option.some_bind, Option.map_some', grid_from]
        rw [grid_from_cons_lt cn x rest n (count + 1) (by omega)]
        simp only [SparseMatrix.row_entries, SparseMatrix.stored_row, hx, if_true]
      · have hxk : count ≤ x.row := hk _ (by simp [row_keys])
        have hall : ∀ k ∈ row_keys (x :: rest), count + 1 ≤ k := by
          intro k hmem
          simp only [row_keys, List.map_cons, List.mem_cons] at hmem
          rcases hmem with hmem | hmem
          · omega
          · have := hs.1 k hmem
            omega
        have hnot : count ∉ row_keys (x :: rest) := by
          intro hmem
          have := hall count hmem
          omega
        have hsx : row_sorted (x :: rest) := by
          unfold row_sorted row_keys
          rw [List.map_cons, List.pairwise_cons]
          exact hs
        rw [SparseMatrix.print_matrix_loop_miss _ _ _ _ _ _ _ hne hx, hzeros,
          ih f (count + 1) (x :: rest) (by omega) (by omega) hsx hall hrows]
        simp only [Option.some_bind, Option.map_some', grid_from]
        rw [SparseMatrix.row_entries_of_not_mem count (x :: rest) hnot]

theorem SparseMatrix.stored_value_eq_row_entries (m : SparseMatrix) (r c : Int) :
    m.stored_value r c = ColumnLinkedList.find_column c (SparseMatrix.row_entries r m.head) := by
  unfold SparseMatrix.stored_value SparseMatrix.row_entries
  cases SparseMatrix.stored_row r m.head with
  | none => rfl
  | some l => rfl

/-- On a printable matrix with `0 <= rows`, `0 <= columns` and enough fuel,
`print_matrix` returns the grid whose element `[r][c]` is the logical value at
`(r, c)`. -/
theorem SparseMatrix.print_matrix_printable (m : SparseMatrix) (fuel : Nat)
    (hp : m.printable) (hr : 0 ≤ m.rows) (hc : 0 ≤ m.columns) (hfr : m.rows ≤ fuel)
    (hfc : m.columns ≤ fuel) :
    m.print_matrix fuel = some (grid_from m.columns.toNat 0 m.rows.toNat m.head) := by
  unfold SparseMatrix.print_matrix
  exact SparseMatrix.print_matrix_loop_eq m.rows m.columns m.columns.toNat fuel
    (Int.toNat_of_nonneg hc) (by omega) m.rows.toNat fuel 0 m.head (by omega) (by omega)
    hp.1 hp.2.1 hp.2.2

theorem SparseMatrix.construct_printable (rows columns : Int) :
    (SparseMatrix.construct rows columns).printable := by
  refine ⟨List.Pairwise.nil, ?_, ?_⟩
  · intro k hk
    cases hk
  · intro x hx
    cases hx

theorem ColumnLinkedList.row_set_value_printable (l : ColumnLinkedList) (data column : Int)
    (hs : col_sorted l.head) (hk : ∀ k ∈ column_keys l.head, 0 ≤ k) (hc : 0 ≤ column) :
    col_sorted (l.set_value data column).head ∧
      ∀ k ∈ column_keys (l.set_value data column).head, 0 ≤ k := by
  unfold ColumnLinkedList.set_value col_sorted
  rw [ColumnLinkedList.column_keys_insert_sorted]
  refine ⟨pairwise_key_insert _ _ hs, ?_⟩
  intro k hmem
  rcases (mem_key_insert _ _ _).mp hmem with hmem | hmem
  · rw [hmem]
    exact hc
  · exact hk k hmem

theorem SparseMatrix.set_value_printable (m : SparseMatrix) (data row column : Int)
    (hp : m.printable) (hr : 0 ≤ row) (hc : 0 ≤ column) :
    (m.set_value data row column).printable := by
  obtain ⟨hs, hk, hrows⟩ := hp
  refine ⟨SparseMatrix.row_sorted_set_value m data row column hs, ?_, ?_⟩
  · intro k hmem
    rcases (SparseMatrix.mem_row_keys_set_value m data row column k).mp hmem with hmem | hmem
    · rw [hmem]
      exact hr
    · exact hk k hmem
  · rw [(SparseMatrix.set_value_dims m data row column).2]
    apply SparseMatrix.set_value_forall
      (fun x => x.list.columns = m.columns ∧ col_sorted x.list.head ∧
        ∀ k ∈ column_keys x.list.head, 0 ≤ k) m data row column hrows
    · exact ⟨ColumnLinkedList.set_value_columns _ _ _,
        ColumnLinkedList.row_set_value_printable _ data column List.Pairwise.nil
          (by intro k hk; cases hk) hc⟩
    · intro n hn
      exact ⟨(ColumnLinkedList.set_value_columns _ _ _).trans (hrows n hn).1,
        ColumnLinkedList.row_set_value_printable _ data column (hrows n hn).2.1 (hrows n hn).2.2 hc⟩

theorem SparseMatrix.set_values_printable (ops : List SetCall) (m : SparseMatrix)
    (hp : m.printable) (hops : ∀ op ∈ ops, 0 ≤ op.row ∧ 0 ≤ op.column) :
    (m.set_values ops).printable := by
  induction ops generalizing m with
  | nil => exact hp
  | cons op ops ih =>
    unfold SparseMatrix.set_values
    rw [List.foldl_cons]
    have h0 := hops op (List.mem_cons_self _ _)
    exact ih _ (SparseMatrix.set_value_printable m op.data op.row op.column hp h0.1 h0.2)
      (fun o ho => hops o (List.mem_cons_of_mem _ ho))

theorem SparseMatrix.set_values_dims (ops : List SetCall) (m : SparseMatrix) :
    (m.set_values ops).rows = m.rows ∧ (m.set_values ops).columns = m.columns := by
  induction ops generalizing m with
  | nil => exact ⟨rfl, rfl⟩
  | cons op ops ih =>
    unfold SparseMatrix.set_values
    rw [List.foldl_cons]
    obtain ⟨h1, h2⟩ := ih (m.set_value op.data op.row op.column)
    obtain ⟨g1, g2⟩ := SparseMatrix.set_value_dims m op.data op.row op.column
    exact ⟨h1.trans g1, h2.trans g2⟩

theorem SparseMatrix.set_values_row_sorted (ops : List SetCall) (m : SparseMatrix)
    (hs : row_sorted m.head) : row_sorted (m.set_values ops).head := by
  induction ops generalizing m with
  | nil => exact hs
  | cons op ops ih =>
    unfold SparseMatrix.set_values
    rw [List.foldl_cons]
    exact ih _ (SparseMatrix.row_sorted_set_value m op.data op.row op.column hs)

theorem SparseMatrix.stored_value_set_values (ops : List SetCall) (rows columns r c : Int) :
    ((SparseMatrix.construct rows columns).set_values ops).stored_value r c =
      last_written ops r c := by
  induction ops using List.reverseRecOn with
  | nil => rfl
  | append_singleton ops op ih =>
    have hs := SparseMatrix.set_values_row_sorted ops (SparseMatrix.construct rows columns)
      List.Pairwise.nil
    have hrun : (SparseMatrix.construct rows columns).set_values (ops ++ [op]) =
        ((SparseMatrix.construct rows columns).set_values ops).set_value
          op.data op.row op.column := by
      unfold SparseMatrix.set_values
      rw [List.foldl_append]
      rfl
    rw [hrun, SparseMatrix.stored_value_set_value _ _ _ _ _ _ hs, ih]
    unfold last_written
    rw [List.reverse_append, List.reverse_singleton, List.singleton_append, List.find?_cons]
    by_cases hhit : op.row = r ∧ op.column = c
    · obtain ⟨rfl, rfl⟩ := hhit
      simp only [and_self, decide_True, if_true]
    · have hhit2 : ¬ (r = op.row ∧ c = op.column) := fun h => hhit ⟨h.1.symm, h.2.symm⟩
      rw [if_neg hhit2, decide_eq_false hhit]

/-! ## Claim C10 -/

/-- C10: for every matrix `M(rowCount, columnCount)` and every sequence of
`set_value` calls whose indices all satisfy `0 <= r < rowCount` and
`0 <= c < columnCount`, `print_matrix` terminates (any fuel of at least
`rowCount` and `columnCount` rounds is enough) and element `[r][c]` of the
printed grid is the value last written to `(r, c)`, or `0` if `(r, c)` was never
written. -/
theorem print_matrix_last_written (rows columns : Int) (ops : List SetCall) (r c : Int)
    (fuel : Nat)
    (hops : ∀ op ∈ ops, 0 ≤ op.row ∧ op.row < rows ∧ 0 ≤ op.column ∧ op.column < columns)
    (hr : 0 ≤ r ∧ r < rows) (hc : 0 ≤ c ∧ c < columns) (hfr : rows ≤ fuel)
    (hfc : columns ≤ fuel) :
    ∃ grid printed,
      ((SparseMatrix.construct rows columns).set_values ops).print_matrix fuel = some grid ∧
        grid[r.toNat]? = some printed ∧ printed[c.toNat]? = some (last_written ops r c) := by
  have hp : ((SparseMatrix.construct rows columns).set_values ops).printable :=
    SparseMatrix.set_values_printable ops _ (SparseMatrix.construct_printable rows columns)
      (fun op hop => ⟨(hops op hop).1, (hops op hop).2.2.1⟩)
  obtain ⟨hdr, hdc⟩ := SparseMatrix.set_values_dims ops (SparseMatrix.construct rows columns)
  have hrows : ((SparseMatrix.construct rows columns).set_values ops).rows = rows := hdr
  have hcols : ((SparseMatrix.construct rows columns).set_values ops).columns = columns := hdc
  have hprint := SparseMatrix.print_matrix_printable _ fuel hp (by omega) (by omega)
    (by omega) (by omega)
  rw [hrows, hcols] at hprint
  refine ⟨_, dense_from 0 columns.toNat (SparseMatrix.row_entries (0 + (r.toNat : Int))
    ((SparseMatrix.construct rows columns).set_values ops).head), hprint, ?_, ?_⟩
  · exact grid_from_getElem columns.toNat _ rows.toNat 0 r.toNat (by omega)
  · rw [dense_from_getElem _ columns.toNat 0 c.toNat (by omega),
      ← SparseMatrix.stored_value_set_values ops rows columns r c,
      SparseMatrix.stored_value_eq_row_entries]
    congr 3
    · omega
    · omega

/-- Witness of C10: `M(3,3)` after `set_value(5,0,0)`, `set_value(7,1,2)`,
`set_value(3,1,2)` prints `[[5,0,0],[0,0,3],[0,0,0]]`; element `[1][2]` is the
overwriting value `3`. -/
theorem print_matrix_last_written_witness :
    ((SparseMatrix.construct 3 3).set_values
        [⟨5, 0, 0⟩, ⟨7, 1, 2⟩, ⟨3, 1, 2⟩]).print_matrix 3
      = some [[5, 0, 0], [0, 0, 3], [0, 0, 0]] ∧
    last_written [⟨5, 0, 0⟩, ⟨7, 1, 2⟩, ⟨3, 1, 2⟩] 1 2 = 3 ∧
    ∃ grid printed,
      ((SparseMatrix.construct 3 3).set_values
          [⟨5, 0, 0⟩, ⟨7, 1, 2⟩, ⟨3, 1, 2⟩]).print_matrix 3 = some grid ∧
        grid[(1 : Int).toNat]? = some printed ∧
        printed[(2 : Int).toNat]? = some (last_written [⟨5, 0, 0⟩, ⟨7, 1, 2⟩, ⟨3, 1, 2⟩] 1 2) :=
  ⟨by decide, by decide,
    print_matrix_last_written 3 3 [⟨5, 0, 0⟩, ⟨7, 1, 2⟩, ⟨3, 1, 2⟩] 1 2 3 (by decide)
      (by decide) (by decide) (by decide) (by decide)⟩

/-! ## Claims C11 and C12 -/

theorem ColumnLinkedList.set_values_columns (ops : List RowSetCall) (l : ColumnLinkedList) :
    (l.set_values ops).columns = l.columns := by
  induction ops generalizing l with
  | nil => rfl
  | cons op ops ih =>
    unfold ColumnLinkedList.set_values
    rw [List.foldl_cons]
    exact (ih _).trans (ColumnLinkedList.set_value_columns l op.data op.column)

theorem ColumnLinkedList.row_set_values_printable (ops : List RowSetCall) (l : ColumnLinkedList)
    (hs : col_sorted l.head) (hk : ∀ k ∈ column_keys l.head, 0 ≤ k)
    (hops : ∀ op ∈ ops, 0 ≤ op.column) :
    col_sorted (l.set_values ops).head ∧ ∀ k ∈ column_keys (l.set_values ops).head, 0 ≤ k := by
  induction ops generalizing l with
  | nil => exact ⟨hs, hk⟩
  | cons op ops ih =>
    unfold ColumnLinkedList.set_values
    rw [List.foldl_cons]
    have h1 := ColumnLinkedList.row_set_value_printable l op.data op.column hs hk
      (hops op (List.mem_cons_self _ _))
    exact ih _ h1.1 h1.2 (fun o ho => hops o (List.mem_cons_of_mem _ ho))

/-- Counterexample to C11 as stated (arbitrary integer columns): the row of 3
columns after `set_value(9, -1)` and `set_value(5, 0)` stores `5` at column 0,
but `print_array` prints `0 0 0`: its walk waits at the node of column `-1`,
which no count from `0` ever equals. -/
theorem print_array_negative_column :
    ({ data := 5, columns := 0 } : ColumnNode) ∈
        ((ColumnLinkedList.construct 3).set_values [⟨9, -1⟩, ⟨5, 0⟩]).head ∧
      ((ColumnLinkedList.construct 3).set_values [⟨9, -1⟩, ⟨5, 0⟩]).print_array 3
        = some [0, 0, 0] ∧
      ((ColumnLinkedList.construct 3).set_values [⟨9, -1⟩, ⟨5, 0⟩]).get_value 0 = some 5 :=
  ⟨by decide, by decide, by decide⟩

/-- C11 (amended): for every row state reachable by a sequence of `set_value`
calls whose columns are not negative (no upper bound is needed) and every
column `c` in `0..columnCount-1`, `print_array` terminates (any fuel of at least
`columnCount` rounds is enough), prints `columnCount` integers, and the `c`-th of
them is the stored value if an entry exists at column `c`, else `0`. -/
theorem print_array_dense (columns : Int) (ops : List RowSetCall) (c : Int) (fuel : Nat)
    (hops : ∀ op ∈ ops, 0 ≤ op.column) (hc : 0 ≤ c ∧ c < columns) (hf : columns ≤ fuel) :
    ∃ out, ((ColumnLinkedList.construct columns).set_values ops).print_array fuel = some out ∧
      out.length = columns.toNat ∧
      (∀ n ∈ ((ColumnLinkedList.construct columns).set_values ops).head,
        n.columns = c → out[c.toNat]? = some n.data) ∧
      (c ∉ column_keys ((ColumnLinkedList.construct columns).set_values ops).head →
        out[c.toNat]? = some 0) := by
  obtain ⟨hs, hk⟩ := ColumnLinkedList.row_set_values_printable ops
    (ColumnLinkedList.construct columns) List.Pairwise.nil (by intro k hk; cases hk) hops
  have hcols := ColumnLinkedList.set_values_columns ops (ColumnLinkedList.construct columns)
  have hcols2 : ((ColumnLinkedList.construct columns).set_values ops).columns = columns := hcols
  have hprint : ((ColumnLinkedList.construct columns).set_values ops).print_array fuel =
      some (dense_from 0 columns.toNat
        ((ColumnLinkedList.construct columns).set_values ops).head) := by
    unfold ColumnLinkedList.print_array
    rw [hcols2]
    exact ColumnLinkedList.print_array_loop_eq columns columns.toNat fuel 0 _ (by omega)
      (by omega) hs hk
  have hget := dense_from_getElem ((ColumnLinkedList.construct columns).set_values ops).head
    columns.toNat 0 c.toNat (by omega)
  have hidx : (0 : Int) + (c.toNat : Int) = c := by omega
  rw [hidx] at hget
  refine ⟨_, hprint, dense_from_length _ _ _, ?_, ?_⟩
  · intro n hn hnc
    rw [hget, ← hnc, ColumnLinkedList.find_column_of_mem _ hs n hn]
  · intro hnot
    rw [hget, ColumnLinkedList.find_column_of_not_mem c _ hnot]

/-- Witness of C11 (amended): the row of 4 columns after `set_value(7, 2)`,
`set_value(5, 0)`, `set_value(8, 2)`, `set_value(6, 9)` prints `5 0 8 0`; read at
column 2. -/
theorem print_array_dense_witness :
    ((ColumnLinkedList.construct 4).set_values
        [⟨7, 2⟩, ⟨5, 0⟩, ⟨8, 2⟩, ⟨6, 9⟩]).print_array 4 = some [5, 0, 8, 0] ∧
    ∃ out, ((ColumnLinkedList.construct 4).set_values
        [⟨7, 2⟩, ⟨5, 0⟩, ⟨8, 2⟩, ⟨6, 9⟩]).print_array 4 = some out ∧
      out.length = (4 : Int).toNat ∧
      (∀ n ∈ ((ColumnLinkedList.construct 4).set_values
          [⟨7, 2⟩, ⟨5, 0⟩, ⟨8, 2⟩, ⟨6, 9⟩]).head,
        n.columns = 2 → out[(2 : Int).toNat]? = some n.data) ∧
      (2 ∉ column_keys ((ColumnLinkedList.construct 4).set_values
          [⟨7, 2⟩, ⟨5, 0⟩, ⟨8, 2⟩, ⟨6, 9⟩]).head →
        out[(2 : Int).toNat]? = some 0) :=
  ⟨by decide,
    print_array_dense 4 [⟨7, 2⟩, ⟨5, 0⟩, ⟨8, 2⟩, ⟨6, 9⟩] 2 4 (by decide) (by decide)
      (by decide)⟩

theorem dense_from_nil (count : Int) (n : Nat) :
    dense_from count n [] = List.replicate n 0 := by
  induction n generalizing count with
  | zero => rfl
  | succ n ih =>
    simp only [dense_from, ColumnLinkedList.find_column, List.replicate_succ]
    rw [ih]

theorem grid_from_nil (columns : Nat) (count : Int) (n : Nat) :
    grid_from columns count n [] = List.replicate n (List.replicate columns 0) := by
  induction n generalizing count with
  | zero => rfl
  | succ n ih =>
    simp only [grid_from, List.replicate_succ]
    rw [ih]
    congr 1
    exact dense_from_nil 0 columns

/-- C12: for every `rowCount >= 0` and `columnCount >= 0`, `print_matrix` on a
freshly constructed matrix of that size terminates (any fuel of at least
`rowCount` and `columnCount` rounds is enough) and prints exactly `rowCount`
lines of exactly `columnCount` zeros each. -/
theorem print_matrix_fresh (rows columns : Int) (fuel : Nat) (hr : 0 ≤ rows)
    (hc : 0 ≤ columns) (hfr : rows ≤ fuel) (hfc : columns ≤ fuel) :
    (SparseMatrix.construct rows columns).print_matrix fuel =
      some (List.replicate rows.toNat (List.replicate columns.toNat 0)) := by
  rw [SparseMatrix.print_matrix_printable _ fuel (SparseMatrix.construct_printable rows columns)
    hr hc hfr hfc]
  exact congrArg some (grid_from_nil columns.toNat 0 rows.toNat)

/-- Witness of C12: the fresh matrix of size (3, 4) prints three lines of four
zeros. -/
theorem print_matrix_fresh_witness :
    (SparseMatrix.construct 3 4).print_matrix 4 =
      some [[0, 0, 0, 0], [0, 0, 0, 0], [0, 0, 0, 0]] :=
  print_matrix_fresh 3 4 4 (by decide) (by decide) (by decide) (by decide)

/-! ## Claims C13 and C14 -/

/-- Counterexample to C13 as stated: for `M(3,3)` after `set_value(5,0,0)`,
`set_value(7,1,2)`, `set_value(3,1,2)` the specified rendering is
`[(0,[(0,5)]), (1,[(2,3)])]`, but `print_matrix_nonzero` prints the lines `5`
and `3`: no row index and no column index is printed.  The matrix with `5` at
`(0,1)` and `3` at `(2,0)` prints the same lines although its specified
rendering differs. -/
theorem print_matrix_nonzero_values_only :
    ((SparseMatrix.construct 3 3).set_values
        [⟨5, 0, 0⟩, ⟨7, 1, 2⟩, ⟨3, 1, 2⟩]).print_matrix_nonzero = [[5], [3]] ∧
      ((SparseMatrix.construct 3 3).set_values
        [⟨5, 0, 0⟩, ⟨7, 1, 2⟩, ⟨3, 1, 2⟩]).render_sparse = [(0, [(0, 5)]), (1, [(2, 3)])] ∧
      ((SparseMatrix.construct 3 3).set_values
        [⟨5, 0, 1⟩, ⟨3, 2, 0⟩]).print_matrix_nonzero = [[5], [3]] ∧
      ((SparseMatrix.construct 3 3).set_values
        [⟨5, 0, 1⟩, ⟨3, 2, 0⟩]).render_sparse ≠
        ((SparseMatrix.construct 3 3).set_values
          [⟨5, 0, 0⟩, ⟨7, 1, 2⟩, ⟨3, 1, 2⟩]).render_sparse :=
  ⟨by decide, by decide, by decide, by decide⟩

/-- C13 (amended): for every reachable matrix, `print_matrix_nonzero` prints one
line for each row present in the row sequence, in ascending row-index order;
the line of a row (`print_array_nonzero`) lists the values of all its
explicitly stored entries in ascending column order, without the row index and
without the column indices.  Each printed value is the logical value of the
matrix at the row and column of its entry. -/
theorem print_matrix_nonzero_spec (m : SparseMatrix) (hm : Reachable m) :
    m.print_matrix_nonzero = m.render_sparse.map (fun p => p.2.map (fun e => e.2)) ∧
      m.print_matrix_nonzero =
        m.head.map (fun n => (column_keys n.list.head).map (fun c => m.stored_value n.row c)) ∧
      row_sorted m.head ∧ ∀ n ∈ m.head, col_sorted n.list.head := by
  have hv := hm.valid
  refine ⟨?_, ?_, hv.1, fun n hn => (hv.2 n hn).1.1⟩
  · unfold SparseMatrix.print_matrix_nonzero SparseMatrix.render_sparse
      ColumnLinkedList.print_array_nonzero
    rw [List.map_map]
    apply List.map_congr_left
    intro n _
    simp only [Function.comp, List.map_map]
    rfl
  · unfold SparseMatrix.print_matrix_nonzero ColumnLinkedList.print_array_nonzero column_keys
    apply List.map_congr_left
    intro n hn
    rw [List.map_map]
    apply List.map_congr_left
    intro e he
    unfold SparseMatrix.stored_value
    rw [Function.comp, SparseMatrix.stored_row_of_mem m.head hv.1 n hn]
    exact (ColumnLinkedList.find_column_of_mem n.list.head (hv.2 n hn).1.1 e he).symm

/-- Witness of C13 (amended): `M(3,3)` after `set_value(5,0,0)`,
`set_value(7,1,2)`, `set_value(3,1,2)` prints the lines `5` and `3`. -/
theorem print_matrix_nonzero_spec_witness :
    ((((SparseMatrix.construct 3 3).set_value 5 0 0).set_value 7 1 2).set_value
        3 1 2).print_matrix_nonzero = [[5], [3]] ∧
    ((((SparseMatrix.construct 3 3).set_value 5 0 0).set_value 7 1 2).set_value
        3 1 2).print_matrix_nonzero =
      ((((SparseMatrix.construct 3 3).set_value 5 0 0).set_value 7 1 2).set_value
        3 1 2).render_sparse.map (fun p => p.2.map (fun e => e.2)) :=
  ⟨by decide,
    (print_matrix_nonzero_spec _
      (Reachable.set_value _ 3 1 2
        (Reachable.set_value _ 7 1 2
          (Reachable.set_value _ 5 0 0 (Reachable.construct 3 3) (by decide)) (by decide))
        (by decide))).1⟩

theorem length_key_insert (k : Int) (ks : List Int) (h : ks.Pairwise (fun a b => a < b)) :
    (key_insert k ks).length = if k ∈ ks then ks.length else ks.length + 1 := by
  induction ks with
  | nil => simp [key_insert]
  | cons y ys ih =>
    rw [List.pairwise_cons] at h
    unfold key_insert
    by_cases h1 : y = k
    · simp [h1]
    · have h1s : ¬ k = y := fun e => h1 e.symm
      by_cases h2 : y > k
      · have hnot : k ∉ ys := by
          intro hmem
          have := h.1 k hmem
          omega
        simp [h1, h2, h1s, hnot]
      · simp only [h1, h2, if_false, List.length_cons, ih h.2, List.mem_cons, h1s, false_or]
        split <;> rfl

/-- C14: for every reachable row, every column `c` and every `int` value `v`: if
the row already stores an entry at column `c`, `set_value(v, c)` leaves the
number of stored entries and the `length` field unchanged; if it stores none,
`set_value(v, c)` grows both by exactly one.  Before and after the call the
`length` field equals the number of stored entries. -/
theorem row_set_value_count (l : ColumnLinkedList) (v c : Int) (hl : RowReachable l)
    (hv : is_int v) :
    (c ∈ column_keys l.head →
        (l.set_value v c).head.length = l.head.length ∧ (l.set_value v c).length = l.length) ∧
      (c ∉ column_keys l.head →
        (l.set_value v c).head.length = l.head.length + 1 ∧
          (l.set_value v c).length = l.length + 1) ∧
      (l.set_value v c).length = ((l.set_value v c).head.length : Int) ∧
      l.length = (l.head.length : Int) := by
  have hlv := hl.row_valid
  have hnv := (RowReachable.set_value l v c hl hv).row_valid
  have hkeys : (l.set_value v c).head.length =
      if c ∈ column_keys l.head then l.head.length else l.head.length + 1 := by
    have h1 := congrArg List.length
      (ColumnLinkedList.column_keys_insert_sorted l { data := v, columns := c })
    rw [length_key_insert _ _ hlv.1] at h1
    simpa [column_keys, ColumnLinkedList.set_value] using h1
  refine ⟨?_, ?_, hnv.2.2, hlv.2.2⟩
  · intro hmem
    rw [if_pos hmem] at hkeys
    refine ⟨hkeys, ?_⟩
    rw [hnv.2.2, hlv.2.2, hkeys]
  · intro hnot
    rw [if_neg hnot] at hkeys
    refine ⟨hkeys, ?_⟩
    rw [hnv.2.2, hlv.2.2, hkeys]
    push_cast
    rfl

/-- Witness of C14: on the row of 4 columns holding `3` at column 1, writing at
column 1 keeps one entry and writing at column 2 gives two. -/
theorem row_set_value_count_witness :
    (((ColumnLinkedList.construct 4).set_value 3 1).set_value 9 1).head.length = 1 ∧
    (((ColumnLinkedList.construct 4).set_value 3 1).set_value 9 2).head.length = 2 ∧
    (((ColumnLinkedList.construct 4).set_value 3 1).set_value 9 2).length = 2 ∧
    (2 ∉ column_keys ((ColumnLinkedList.construct 4).set_value 3 1).head →
      (((ColumnLinkedList.construct 4).set_value 3 1).set_value 9 2).head.length =
          ((ColumnLinkedList.construct 4).set_value 3 1).head.length + 1 ∧
        (((ColumnLinkedList.construct 4).set_value 3 1).set_value 9 2).length =
          ((ColumnLinkedList.construct 4).set_value 3 1).length + 1) :=
  ⟨by decide, by decide, by decide,
    (row_set_value_count ((ColumnLinkedList.construct 4).set_value 3 1) 9 2
      (RowReachable.set_value _ 3 1 (RowReachable.construct 4) (by decide)) (by decide)).2.1⟩

/-! ## Claims C15 and C17 -/

theorem SparseMatrix.has_entry_iff (m : SparseMatrix) (hs : row_sorted m.head) (r c : Int) :
    m.has_entry r c ↔ c ∈ column_keys (SparseMatrix.row_entries r m.head) := by
  unfold SparseMatrix.has_entry SparseMatrix.row_entries
  constructor
  · rintro ⟨n, hn, hr, hc⟩
    rw [← hr, SparseMatrix.stored_row_of_mem m.head hs n hn]
    exact hc
  · intro h
    cases hsr : SparseMatrix.stored_row r m.head with
    | none =>
      rw [hsr] at h
      simp [column_keys] at h
    | some l =>
      rw [hsr] at h
      obtain ⟨n, hn, hr, hl⟩ := SparseMatrix.stored_row_mem r m.head l hsr
      exact ⟨n, hn, hr, hl ▸ h⟩

theorem ColumnLinkedList.mem_column_keys_set_value (l : ColumnLinkedList) (v c x : Int) :
    x ∈ column_keys (l.set_value v c).head ↔ x = c ∨ x ∈ column_keys l.head := by
  unfold ColumnLinkedList.set_value
  rw [ColumnLinkedList.column_keys_insert_sorted, mem_key_insert]

theorem SparseMatrix.mem_row_entries_set_value (m : SparseMatrix) (v r c r' x : Int)
    (hs : row_sorted m.head) :
    x ∈ column_keys (SparseMatrix.row_entries r' (m.set_value v r c).head) ↔
      (r' = r ∧ x = c) ∨ x ∈ column_keys (SparseMatrix.row_entries r' m.head) := by
  unfold SparseMatrix.row_entries
  rw [SparseMatrix.stored_row_set_value m v r c r' hs]
  by_cases hr : r' = r
  · rw [if_pos hr]
    dsimp only
    rw [ColumnLinkedList.mem_column_keys_set_value]
    cases SparseMatrix.stored_row r' m.head with
    | none => simp [hr, column_keys, ColumnLinkedList.construct]
    | some l => simp [hr]
  · rw [if_neg hr]
    simp [hr]

theorem SparseMatrix.mem_row_entries_add (m other : SparseMatrix) (r x : Int)
    (hs : row_sorted other.head) :
    x ∈ column_keys (SparseMatrix.row_entries r (m.add other).head) ↔
      x ∈ column_keys (SparseMatrix.row_entries r m.head) ∨
        x ∈ column_keys (SparseMatrix.row_entries r other.head) := by
  unfold SparseMatrix.row_entries
  rw [SparseMatrix.stored_row_add m other r hs]
  cases SparseMatrix.stored_row r other.head with
  | none => simp [column_keys]
  | some o =>
    dsimp only
    unfold ColumnLinkedList.add
    rw [ColumnLinkedList.mem_column_keys_foldl_add_node]
    cases SparseMatrix.stored_row r m.head with
    | none => simp [column_keys, ColumnLinkedList.construct]
    | some l => simp

theorem SparseMatrix.row_sorted_add (m other : SparseMatrix) (hs : row_sorted m.head) :
    row_sorted (m.add other).head := by
  unfold SparseMatrix.add
  generalize other.head = os
  induction os generalizing m with
  | nil => exact hs
  | cons o os ih =>
    rw [List.foldl_cons]
    exact ih _ (SparseMatrix.row_sorted_add_row m o hs)

/-- C15: no operation deletes or compacts entries.  For every reachable matrix,
after `set_value(v, r, c)` the stored `(row, column)` keys are exactly the old
ones plus `(r, c)`, for every `v` (also `v = 0`); and after `A.add(B)` the stored
keys of `A` are exactly those of the old `A` together with those of `B`,
whatever the summed values are. -/
theorem stored_keys_only_grow (m other : SparseMatrix) (v r c r' c' : Int)
    (hm : Reachable m) (ho : Reachable other) :
    ((m.set_value v r c).has_entry r' c' ↔ (r' = r ∧ c' = c) ∨ m.has_entry r' c') ∧
      ((m.add other).has_entry r' c' ↔ m.has_entry r' c' ∨ other.has_entry r' c') := by
  have hmv := hm.valid
  have hov := ho.valid
  constructor
  · rw [SparseMatrix.has_entry_iff _ (SparseMatrix.row_sorted_set_value m v r c hmv.1),
      SparseMatrix.has_entry_iff _ hmv.1, SparseMatrix.mem_row_entries_set_value _ _ _ _ _ _ hmv.1]
  · rw [SparseMatrix.has_entry_iff _ (SparseMatrix.row_sorted_add m other hmv.1),
      SparseMatrix.has_entry_iff _ hmv.1, SparseMatrix.has_entry_iff _ hov.1,
      SparseMatrix.mem_row_entries_add _ _ _ _ hov.1]

/-- Witness of C15: `A(2,2)` holding `5` at `(0,0)` keeps the key `(0,0)` after
`set_value(0, 0, 0)` and after adding `B(2,2)` that holds `-5` at `(0,0)`: the
explicit zero and the zero sum stay stored. -/
theorem stored_keys_only_grow_witness :
    (((SparseMatrix.construct 2 2).set_value 5 0 0).set_value 0 0 0).has_entry 0 0 ∧
    (((SparseMatrix.construct 2 2).set_value 5 0 0).add
      ((SparseMatrix.construct 2 2).set_value (-5) 0 0)).has_entry 0 0 ∧
    (((SparseMatrix.construct 2 2).set_value 5 0 0).add
      ((SparseMatrix.construct 2 2).set_value (-5) 0 0)).stored_value 0 0 = 0 :=
  ⟨((stored_keys_only_grow ((SparseMatrix.construct 2 2).set_value 5 0 0)
        ((SparseMatrix.construct 2 2).set_value (-5) 0 0) 0 0 0 0 0
        (Reachable.set_value _ 5 0 0 (Reachable.construct 2 2) (by decide))
        (Reachable.set_value _ (-5) 0 0 (Reachable.construct 2 2) (by decide))).1).mpr
      (Or.inl ⟨rfl, rfl⟩),
    ((stored_keys_only_grow ((SparseMatrix.construct 2 2).set_value 5 0 0)
        ((SparseMatrix.construct 2 2).set_value (-5) 0 0) 0 0 0 0 0
        (Reachable.set_value _ 5 0 0 (Reachable.construct 2 2) (by decide))
        (Reachable.set_value _ (-5) 0 0 (Reachable.construct 2 2) (by decide))).2).mpr
      (Or.inr ⟨_, List.mem_cons_self _ _, rfl, by decide⟩),
    by decide⟩

/-- C17: frame of `set_value`.  For every reachable matrix and all `r`, `c`, `v`,
`set_value(v, r, c)` leaves `rows` and `columns` unchanged, leaves the presence
and the value of the stored entry at every other position unchanged, and
leaves every stored row other than row `r` identical: the row nodes with another
index are the same before and after. -/
theorem set_value_frame (m : SparseMatrix) (v r c : Int) (hm : Reachable m) :
    (m.set_value v r c).rows = m.rows ∧ (m.set_value v r c).columns = m.columns ∧
      (∀ r' c', ¬ (r' = r ∧ c' = c) →
        ((m.set_value v r c).has_entry r' c' ↔ m.has_entry r' c') ∧
          (m.set_value v r c).stored_value r' c' = m.stored_value r' c') ∧
      (∀ r', r' ≠ r →
        SparseMatrix.stored_row r' (m.set_value v r c).head =
          SparseMatrix.stored_row r' m.head) ∧
      (∀ n, n.row ≠ r → (n ∈ (m.set_value v r c).head ↔ n ∈ m.head)) := by
  have hmv := hm.valid
  have hs1 := SparseMatrix.row_sorted_set_value m v r c hmv.1
  have hrow : ∀ r', r' ≠ r →
      SparseMatrix.stored_row r' (m.set_value v r c).head =
        SparseMatrix.stored_row r' m.head := by
    intro r' hr
    rw [SparseMatrix.stored_row_set_value m v r c r' hmv.1, if_neg hr]
  refine ⟨(SparseMatrix.set_value_dims m v r c).1, (SparseMatrix.set_value_dims m v r c).2,
    ?_, hrow, ?_⟩
  · intro r' c' hne
    constructor
    · rw [SparseMatrix.has_entry_iff _ hs1, SparseMatrix.has_entry_iff _ hmv.1,
        SparseMatrix.mem_row_entries_set_value _ _ _ _ _ _ hmv.1]
      constructor
      · rintro (h | h)
        · exact absurd h hne
        · exact h
      · exact fun h => Or.inr h
    · rw [SparseMatrix.stored_value_set_value m v r c r' c' hmv.1, if_neg hne]
  · intro n hn
    constructor
    · intro hmem
      have h1 := SparseMatrix.stored_row_of_mem _ hs1 n hmem
      rw [hrow n.row hn] at h1
      obtain ⟨n2, hn2, hr2, hl2⟩ := SparseMatrix.stored_row_mem _ _ _ h1
      have : n2 = n := by
        cases n2
        cases n
        simp only at hr2 hl2
        rw [hr2, hl2]
      exact this ▸ hn2
    · intro hmem
      have h1 := SparseMatrix.stored_row_of_mem _ hmv.1 n hmem
      rw [← hrow n.row hn] at h1
      obtain ⟨n2, hn2, hr2, hl2⟩ := SparseMatrix.stored_row_mem _ _ _ h1
      have : n2 = n := by
        cases n2
        cases n
        simp only at hr2 hl2
        rw [hr2, hl2]
      exact this ▸ hn2

/-- Witness of C17: in `M(3,3)` holding `5` at `(0,0)` and `7` at `(1,2)`,
`set_value(3, 1, 1)` leaves the dimensions, position `(1,2)` and row 0 as they
were. -/
theorem set_value_frame_witness :
    ((((SparseMatrix.construct 3 3).set_value 5 0 0).set_value 7 1 2).set_value
        3 1 1).stored_value 1 2 = 7 ∧
    ((((SparseMatrix.construct 3 3).set_value 5 0 0).set_value 7 1 2).set_value 3 1 1).rows
      = (((SparseMatrix.construct 3 3).set_value 5 0 0).set_value 7 1 2).rows ∧
    SparseMatrix.stored_row 0
        ((((SparseMatrix.construct 3 3).set_value 5 0 0).set_value 7 1 2).set_value
          3 1 1).head =
      SparseMatrix.stored_row 0
        (((SparseMatrix.construct 3 3).set_value 5 0 0).set_value 7 1 2).head :=
  ⟨by decide,
    (set_value_frame (((SparseMatrix.construct 3 3).set_value 5 0 0).set_value 7 1 2) 3 1 1
      (Reachable.set_value _ 7 1 2
        (Reachable.set_value _ 5 0 0 (Reachable.construct 3 3) (by decide)) (by decide))).1,
    (set_value_frame (((SparseMatrix.construct 3 3).set_value 5 0 0).set_value 7 1 2) 3 1 1
      (Reachable.set_value _ 7 1 2
        (Reachable.set_value _ 5 0 0 (Reachable.construct 3 3) (by decide))
        (by decide))).2.2.2.1 0 (by decide)⟩

/-! ## Claim C16 -/

theorem ColumnLinkedList.print_array_loop_shape (columns : Int) (n : Nat) (fuel : Nat)
    (count : Int) (curr : List ColumnNode) (hn : count + n = columns) (hf : n ≤ fuel) :
    ∃ out, ColumnLinkedList.print_array_loop columns fuel count curr = some out ∧
      out.length = n := by
  induction n generalizing fuel count curr with
  | zero =>
    exact ⟨[], ColumnLinkedList.print_array_loop_done _ _ _ _ (by omega), rfl⟩
  | succ n ih =>
    have hne : count ≠ columns := by omega
    obtain ⟨f, rfl⟩ : ∃ f, fuel = f + 1 := ⟨fuel - 1, by omega⟩
    cases curr with
    | nil =>
      obtain ⟨out, ho, hl⟩ := ih f (count + 1) [] (by omega) (by omega)
      refine ⟨0 :: out, ?_, by simp [hl]⟩
      rw [ColumnLinkedList.print_array_loop_nil _ _ _ hne, ho]
      rfl
    | cons x rest =>
      by_cases hx : x.columns = count
      · obtain ⟨out, ho, hl⟩ := ih f (count + 1) rest (by omega) (by omega)
        refine ⟨x.data :: out, ?_, by simp [hl]⟩
        rw [ColumnLinkedList.print_array_loop_hit _ _ _ _ _ hne hx, ho]
        rfl
      · obtain ⟨out, ho, hl⟩ := ih f (count + 1) (x :: rest) (by omega) (by omega)
        refine ⟨0 :: out, ?_, by simp [hl]⟩
        rw [ColumnLinkedList.print_array_loop_miss _ _ _ _ _ hne hx, ho]
        rfl

theorem SparseMatrix.print_matrix_loop_shape (rows columns : Int) (cn inner : Nat)
    (hcn : (cn : Int) = columns) (hinner : cn ≤ inner) (n : Nat) (fuel : Nat) (count : Int)
    (curr : List rowNode) (hn : count + n = rows) (hf : n ≤ fuel)
    (hrows : ∀ x ∈ curr, x.list.columns = columns) :
    ∃ grid, SparseMatrix.print_matrix_loop rows columns inner fuel count curr = some grid ∧
      grid.length = n ∧ ∀ ln ∈ grid, ln.length = cn := by
  have hzeros : SparseMatrix.print_zeros_loop columns inner 0 = some (dense_from 0 cn []) :=
    SparseMatrix.print_zeros_loop_eq columns cn inner 0 (by omega) hinner
  induction n generalizing fuel count curr with
  | zero =>
    refine ⟨[], SparseMatrix.print_matrix_loop_done _ _ _ _ _ _ (by omega), rfl, ?_⟩
    intro ln hln
    cases hln
  | succ n ih =>
    have hne : count ≠ rows := by omega
    obtain ⟨f, rfl⟩ : ∃ f, fuel = f + 1 := ⟨fuel - 1, by omega⟩
    cases curr with
    | nil =>
      obtain ⟨grid, hg, hl, hall⟩ := ih f (count + 1) [] (by omega) (by omega) hrows
      refine ⟨dense_from 0 cn [] :: grid, ?_, by simp [hl], ?_⟩
      · rw [SparseMatrix.print_matrix_loop_nil _ _ _ _ _ hne, hzeros, hg]
        rfl
      · intro ln hln
        rcases List.mem_cons.mp hln with hln | hln
        · rw [hln]
          exact dense_from_length _ _ _
        · exact hall ln hln
    | cons x rest =>
      have hrest : ∀ y ∈ rest, y.list.columns = columns :=
        fun y hy => hrows y (List.mem_cons_of_mem _ hy)
      by_cases hx : x.row = count
      · obtain ⟨grid, hg, hl, hall⟩ := ih f (count + 1) rest (by omega) (by omega) hrest
        obtain ⟨out, hout, hol⟩ := ColumnLinkedList.print_array_loop_shape x.list.columns cn
          inner 0 x.list.head (by rw [hrows x (List.mem_cons_self _ _)]; omega) hinner
        refine ⟨out :: grid, ?_, by simp [hl], ?_⟩
        · rw [SparseMatrix.print_matrix_loop_hit _ _ _ _ _ _ _ hne hx]
          unfold ColumnLinkedList.print_array
          rw [hout, hg]
          rfl
        · intro ln hln
          rcases List.mem_cons.mp hln with hln | hln
          · rw [hln]
            exact hol
          · exact hall ln hln
      · obtain ⟨grid, hg, hl, hall⟩ := ih f (count + 1) (x :: rest) (by omega) (by omega) hrows
        refine ⟨dense_from 0 cn [] :: grid, ?_, by simp [hl], ?_⟩
        · rw [SparseMatrix.print_matrix_loop_miss _ _ _ _ _ _ _ hne hx, hzeros, hg]
          rfl
        · intro ln hln
          rcases List.mem_cons.mp hln with hln | hln
          · rw [hln]
            exact dense_from_length _ _ _
          · exact hall ln hln

/-- C16: for every matrix with `rowCount >= 0` and `columnCount >= 0` reachable by
any sequence of `set_value` and `add` calls, whatever their indices (negative and
out-of-range ones included), `print_matrix` terminates (any fuel of at least
`rowCount` and `columnCount` rounds is enough) and prints exactly `rowCount`
lines of exactly `columnCount` integers each. -/
theorem print_matrix_shape (m : SparseMatrix) (fuel : Nat) (hm : Reachable m)
    (hr : 0 ≤ m.rows) (hc : 0 ≤ m.columns) (hfr : m.rows ≤ fuel) (hfc : m.columns ≤ fuel) :
    ∃ grid, m.print_matrix fuel = some grid ∧ (grid.length : Int) = m.rows ∧
      ∀ ln ∈ grid, (ln.length : Int) = m.columns := by
  have hv := hm.valid
  obtain ⟨grid, hg, hl, hall⟩ := SparseMatrix.print_matrix_loop_shape m.rows m.columns
    m.columns.toNat fuel (Int.toNat_of_nonneg hc) (by omega) m.rows.toNat fuel 0 m.head
    (by omega) (by omega) (fun x hx => (hv.2 x hx).2)
  refine ⟨grid, hg, ?_, ?_⟩
  · rw [hl]
    exact Int.toNat_of_nonneg hr
  · intro ln hln
    rw [hall ln hln]
    exact Int.toNat_of_nonneg hc

/-- Witness of C16: `M(2,3)` after `set_value(4, -1, 0)`, `set_value(5, 0, -2)`,
`set_value(6, 1, 7)` and `set_value(8, 9, 1)` still prints 2 lines of 3
integers. -/
theorem print_matrix_shape_witness :
    (((((SparseMatrix.construct 2 3).set_value 4 (-1) 0).set_value 5 0 (-2)).set_value
        6 1 7).set_value 8 9 1).print_matrix 3 = some [[0, 0, 0], [0, 0, 0]] ∧
    ∃ grid, (((((SparseMatrix.construct 2 3).set_value 4 (-1) 0).set_value 5 0 (-2)).set_value
        6 1 7).set_value 8 9 1).print_matrix 3 = some grid ∧
      (grid.length : Int) = (((((SparseMatrix.construct 2 3).set_value 4 (-1) 0).set_value
        5 0 (-2)).set_value 6 1 7).set_value 8 9 1).rows ∧
      ∀ ln ∈ grid, (ln.length : Int) = (((((SparseMatrix.construct 2 3).set_value
        4 (-1) 0).set_value 5 0 (-2)).set_value 6 1 7).set_value 8 9 1).columns :=
  ⟨by decide,
    print_matrix_shape _ 3
      (Reachable.set_value _ 8 9 1
        (Reachable.set_value _ 6 1 7
          (Reachable.set_value _ 5 0 (-2)
            (Reachable.set_value _ 4 (-1) 0 (Reachable.construct 2 3) (by decide))
            (by decide))
          (by decide))
        (by decide))
      (by decide) (by decide) (by decide) (by decide)⟩

/-! ## Sorted chains are determined by their contents -/

theorem col_chain_ext (xs ys : List ColumnNode) (hx : col_sorted xs) (hy : col_sorted ys)
    (hk : ∀ c, c ∈ column_keys xs ↔ c ∈ column_keys ys)
    (hv : ∀ c, ColumnLinkedList.find_column c xs = ColumnLinkedList.find_column c ys) :
    xs = ys := by
  induction xs generalizing ys with
  | nil =>
    cases ys with
    | nil => rfl
    | cons y ys =>
      have := (hk y.columns).mpr (by simp [column_keys])
      simp [column_keys] at this
  | cons x xs ih =>
    cases ys with
    | nil =>
      have := (hk x.columns).mp (by simp [column_keys])
      simp [column_keys] at this
    | cons y ys =>
      unfold col_sorted column_keys at hx hy
      rw [List.map_cons, List.pairwise_cons] at hx hy
      have hxy : x.columns = y.columns := by
        have h1 := (hk x.columns).mp (by simp [column_keys])
        have h2 := (hk y.columns).mpr (by simp [column_keys])
        simp only [column_keys, List.map_cons, List.mem_cons] at h1 h2
        rcases h1 with h1 | h1
        · exact h1
        · rcases h2 with h2 | h2
          · exact h2.symm
          · have := hx.1 _ h2
            have := hy.1 _ h1
            omega
      have hdata : x.data = y.data := by
        have := hv x.columns
        simp only [ColumnLinkedList.find_column, if_true, hxy] at this
        exact this
      have hhead : x = y := by
        cases x
        cases y
        simp only at hxy hdata
        rw [hxy, hdata]
      subst hhead
      have hxnot : x.columns ∉ column_keys xs := by
        intro hmem
        have := hx.1 _ hmem
        omega
      have hynot : x.columns ∉ column_keys ys := by
        intro hmem
        have := hy.1 _ hmem
        omega
      have htail : xs = ys := by
        apply ih ys hx.2 hy.2
        · intro c
          have := hk c
          simp only [column_keys, List.map_cons, List.mem_cons] at this
          constructor
          · intro hc
            rcases this.mp (Or.inr hc) with h | h
            · exact absurd (h ▸ hc) hxnot
            · exact h
          · intro hc
            rcases this.mpr (Or.inr hc) with h | h
            · exact absurd (h ▸ hc) hynot
            · exact h
        · intro c
          by_cases hc : c = x.columns
          · rw [hc, ColumnLinkedList.find_column_of_not_mem _ _ hxnot,
              ColumnLinkedList.find_column_of_not_mem _ _ hynot]
          · have := hv c
            have hc2 : ¬ x.columns = c := fun e => hc e.symm
            simp only [ColumnLinkedList.find_column, hc2, if_false] at this
            exact this
      rw [htail]

theorem SparseMatrix.stored_row_eq_none_iff (r : Int) (xs : List rowNode) :
    SparseMatrix.stored_row r xs = none ↔ r ∉ row_keys xs := by
  constructor
  · intro h hmem
    obtain ⟨l, hl⟩ := SparseMatrix.stored_row_of_mem_keys r xs hmem
    rw [h] at hl
    cases hl
  · exact SparseMatrix.stored_row_of_not_mem r xs

theorem row_chain_ext (xs ys : List rowNode) (hx : row_sorted xs) (hy : row_sorted ys)
    (hv : ∀ r, SparseMatrix.stored_row r xs = SparseMatrix.stored_row r ys) : xs = ys := by
  have hk : ∀ r, r ∈ row_keys xs ↔ r ∈ row_keys ys := by
    intro r
    have h1 := SparseMatrix.stored_row_eq_none_iff r xs
    have h2 := SparseMatrix.stored_row_eq_none_iff r ys
    rw [hv r] at h1
    constructor
    · intro h
      by_contra hn
      exact (h1.mp (h2.mpr hn)) h
    · intro h
      by_contra hn
      exact (h2.mp (h1.mpr hn)) h
  induction xs generalizing ys with
  | nil =>
    cases ys with
    | nil => rfl
    | cons y ys =>
      have := (hk y.row).mpr (by simp [row_keys])
      simp [row_keys] at this
  | cons x xs ih =>
    cases ys with
    | nil =>
      have := (hk x.row).mp (by simp [row_keys])
      simp [row_keys] at this
    | cons y ys =>
      unfold row_sorted row_keys at hx hy
      rw [List.map_cons, List.pairwise_cons] at hx hy
      have hxy : x.row = y.row := by
        have h1 := (hk x.row).mp (by simp [row_keys])
        have h2 := (hk y.row).mpr (by simp [row_keys])
        simp only [row_keys, List.map_cons, List.mem_cons] at h1 h2
        rcases h1 with h1 | h1
        · exact h1
        · rcases h2 with h2 | h2
          · exact h2.symm
          · have := hx.1 _ h2
            have := hy.1 _ h1
            omega
      have hlist : x.list = y.list := by
        have := hv x.row
        simp only [SparseMatrix.stored_row, if_true, hxy] at this
        exact Option.some.inj this
      have hhead : x = y := by
        cases x
        cases y
        simp only at hxy hlist
        rw [hxy, hlist]
      subst hhead
      have hxnot : x.row ∉ row_keys xs := by
        intro hmem
        have := hx.1 _ hmem
        omega
      have hynot : x.row ∉ row_keys ys := by
        intro hmem
        have := hy.1 _ hmem
        omega
      have htail : xs = ys := by
        apply ih ys hx.2 hy.2
        · intro r
          by_cases hr : r = x.row
          · rw [hr, SparseMatrix.stored_row_of_not_mem _ _ hxnot,
              SparseMatrix.stored_row_of_not_mem _ _ hynot]
          · have := hv r
            have hr2 : ¬ x.row = r := fun e => hr e.symm
            simp only [SparseMatrix.stored_row, hr2, if_false] at this
            exact this
        · intro r
          have := hk r
          simp only [row_keys, List.map_cons, List.mem_cons] at this
          constructor
          · intro hc
            rcases this.mp (Or.inr hc) with h | h
            · exact absurd (h ▸ hc) hxnot
            · exact h
          · intro hc
            rcases this.mpr (Or.inr hc) with h | h
            · exact absurd (h ▸ hc) hynot
            · exact h
      rw [htail]

theorem ColumnLinkedList.eq_of_fields (a b : ColumnLinkedList) (h1 : a.head = b.head)
    (h2 : a.length = b.length) (h3 : a.columns = b.columns) : a = b := by
  cases a
  cases b
  simp only at h1 h2 h3
  rw [h1, h2, h3]

theorem int_add_comm (a b : Int) : int_add a b = int_add b a := by
  unfold int_add
  rw [Int.add_comm]

theorem ColumnLinkedList.add_comm_of_valid (l o : ColumnLinkedList) (hl : l.valid)
    (ho : o.valid) (hc : l.columns = o.columns) : l.add o = o.add l := by
  have h1 := ColumnLinkedList.row_add_valid l o ho hl
  have h2 := ColumnLinkedList.row_add_valid o l hl ho
  apply ColumnLinkedList.eq_of_fields
  · apply col_chain_ext _ _ h1.1 h2.1
    · intro c
      unfold ColumnLinkedList.add
      rw [ColumnLinkedList.mem_column_keys_foldl_add_node,
        ColumnLinkedList.mem_column_keys_foldl_add_node]
      exact Or.comm
    · intro c
      rw [ColumnLinkedList.find_column_add l o c ho hl.2.1,
        ColumnLinkedList.find_column_add o l c hl ho.2.1]
      exact int_add_comm _ _
  · have hk : ∀ c, c ∈ column_keys (l.add o).head ↔ c ∈ column_keys (o.add l).head := by
      intro c
      unfold ColumnLinkedList.add
      rw [ColumnLinkedList.mem_column_keys_foldl_add_node,
        ColumnLinkedList.mem_column_keys_foldl_add_node]
      exact Or.comm
    have hv : ∀ c, ColumnLinkedList.find_column c (l.add o).head =
        ColumnLinkedList.find_column c (o.add l).head := by
      intro c
      rw [ColumnLinkedList.find_column_add l o c ho hl.2.1,
        ColumnLinkedList.find_column_add o l c hl ho.2.1]
      exact int_add_comm _ _
    rw [h1.2.2, h2.2.2, col_chain_ext _ _ h1.1 h2.1 hk hv]
  · rw [ColumnLinkedList.add_columns, ColumnLinkedList.add_columns, hc]

theorem ColumnLinkedList.construct_add (o : ColumnLinkedList) (ho : o.valid) :
    (ColumnLinkedList.construct o.columns).add o = o := by
  have h1 := ColumnLinkedList.row_add_valid (ColumnLinkedList.construct o.columns) o ho
    (ColumnLinkedList.row_construct_valid _)
  have hhead : ((ColumnLinkedList.construct o.columns).add o).head = o.head := by
    apply col_chain_ext _ _ h1.1 ho.1
    · intro c
      unfold ColumnLinkedList.add
      rw [ColumnLinkedList.mem_column_keys_foldl_add_node]
      simp [column_keys, ColumnLinkedList.construct]
    · intro c
      rw [ColumnLinkedList.find_column_add _ o c ho
        (ColumnLinkedList.row_construct_valid _).2.1]
      exact int_add_zero_left (ColumnLinkedList.is_int_find_column c o.head ho.2.1)
  apply ColumnLinkedList.eq_of_fields
  · exact hhead
  · rw [h1.2.2, hhead, ho.2.2]
  · rw [ColumnLinkedList.add_columns]
    rfl

theorem SparseMatrix.stored_row_valid (m : SparseMatrix) (hm : m.valid) (r : Int)
    (l : ColumnLinkedList) (h : SparseMatrix.stored_row r m.head = some l) :
    l.valid ∧ l.columns = m.columns := by
  obtain ⟨n, hn, _, hl⟩ := SparseMatrix.stored_row_mem r m.head l h
  rw [← hl]
  exact hm.2 n hn

theorem SparseMatrix.add_head_comm (a b : SparseMatrix) (ha : a.valid) (hb : b.valid)
    (hc : a.columns = b.columns) : (a.add b).head = (b.add a).head := by
  apply row_chain_ext _ _ (SparseMatrix.row_sorted_add a b ha.1)
    (SparseMatrix.row_sorted_add b a hb.1)
  intro r
  rw [SparseMatrix.stored_row_add a b r hb.1, SparseMatrix.stored_row_add b a r ha.1]
  cases hsa : SparseMatrix.stored_row r a.head with
  | none =>
    cases hsb : SparseMatrix.stored_row r b.head with
    | none => rfl
    | some o =>
      obtain ⟨hov, hoc⟩ := SparseMatrix.stored_row_valid b hb r o hsb
      simp only [Option.getD_none]
      rw [hc, ← hoc, ColumnLinkedList.construct_add o hov]
  | some l =>
    obtain ⟨hlv, hlc⟩ := SparseMatrix.stored_row_valid a ha r l hsa
    cases hsb : SparseMatrix.stored_row r b.head with
    | none =>
      simp only [Option.getD_none]
      rw [← hc, ← hlc, ColumnLinkedList.construct_add l hlv]
    | some o =>
      obtain ⟨hov, hoc⟩ := SparseMatrix.stored_row_valid b hb r o hsb
      simp only [Option.getD_some]
      rw [ColumnLinkedList.add_comm_of_valid l o hlv hov (by rw [hlc, hoc, hc])]

/-! ## Claims C18 and C19 -/

/-- C18: `add` is commutative on stored contents.  For all reachable matrices `A`
and `B` with the same column count (in particular with identical dimensions),
the row sequence of `A` after `A.add(B)` and the row sequence of `B` after
`B.add(A)` are equal: the same row indices in the same order, each with the
same `(column, value)` entries in the same order. -/
theorem add_commutes_on_rows (a b : SparseMatrix) (ha : Reachable a) (hb : Reachable b)
    (hc : a.columns = b.columns) :
    (a.add b).head = (b.add a).head ∧ (a.add b).render_sparse = (b.add a).render_sparse := by
  have h := SparseMatrix.add_head_comm a b ha.valid hb.valid hc
  refine ⟨h, ?_⟩
  unfold SparseMatrix.render_sparse
  rw [h]

/-- Witness of C18: `A(2,3)` holding `1` at `(0,0)` and `7` at `(1,2)`, `B(2,3)`
holding `4` at `(0,0)` and `2` at `(0,1)`: both orders store `[(0,[(0,5),(1,2)]),
(1,[(2,7)])]`. -/
theorem add_commutes_on_rows_witness :
    ((((SparseMatrix.construct 2 3).set_value 1 0 0).set_value 7 1 2).add
        (((SparseMatrix.construct 2 3).set_value 4 0 0).set_value 2 0 1)).render_sparse
      = [(0, [(0, 5), (1, 2)]), (1, [(2, 7)])] ∧
    ((((SparseMatrix.construct 2 3).set_value 1 0 0).set_value 7 1 2).add
        (((SparseMatrix.construct 2 3).set_value 4 0 0).set_value 2 0 1)).head =
      ((((SparseMatrix.construct 2 3).set_value 4 0 0).set_value 2 0 1).add
        (((SparseMatrix.construct 2 3).set_value 1 0 0).set_value 7 1 2)).head :=
  ⟨by decide,
    (add_commutes_on_rows (((SparseMatrix.construct 2 3).set_value 1 0 0).set_value 7 1 2)
      (((SparseMatrix.construct 2 3).set_value 4 0 0).set_value 2 0 1)
      (Reachable.set_value _ 7 1 2
        (Reachable.set_value _ 1 0 0 (Reachable.construct 2 3) (by decide)) (by decide))
      (Reachable.set_value _ 2 0 1
        (Reachable.set_value _ 4 0 0 (Reachable.construct 2 3) (by decide)) (by decide))
      (by decide)).1⟩

/-- C19: the empty matrix is the identity of `add`.  For every reachable matrix
`A`, adding a freshly constructed matrix into `A` leaves `A` unchanged, stored
rows and entries included; and adding `A` into a freshly constructed matrix `E`
with the column count of `A` (in particular with the dimensions of `A`) makes the
row sequence of `E`, with its row indices, entries and values, equal to the one
of `A`. -/
theorem add_fresh_identity (a : SparseMatrix) (rows columns : Int) (ha : Reachable a) :
    a.add (SparseMatrix.construct rows columns) = a ∧
      ((SparseMatrix.construct rows a.columns).add a).head = a.head ∧
      ((SparseMatrix.construct rows a.columns).add a).render_sparse = a.render_sparse := by
  have hav := ha.valid
  have hhead : ((SparseMatrix.construct rows a.columns).add a).head = a.head := by
    apply row_chain_ext _ _
      (SparseMatrix.row_sorted_add (SparseMatrix.construct rows a.columns) a List.Pairwise.nil)
      hav.1
    intro r
    rw [SparseMatrix.stored_row_add _ a r hav.1]
    cases hsa : SparseMatrix.stored_row r a.head with
    | none => rfl
    | some l =>
      obtain ⟨hlv, hlc⟩ := SparseMatrix.stored_row_valid a hav r l hsa
      have hfresh : (SparseMatrix.construct rows a.columns).columns = l.columns := hlc.symm
      simp only [SparseMatrix.stored_row, Option.getD_none]
      rw [hfresh, ColumnLinkedList.construct_add l hlv]
  refine ⟨rfl, hhead, ?_⟩
  unfold SparseMatrix.render_sparse
  rw [hhead]

/-- Witness of C19: `A(2,3)` holding `1` at `(0,0)` and `7` at `(1,2)` against a
fresh matrix of the same dimensions. -/
theorem add_fresh_identity_witness :
    (((SparseMatrix.construct 2 3).set_value 1 0 0).set_value 7 1 2).add
        (SparseMatrix.construct 2 3) =
      (((SparseMatrix.construct 2 3).set_value 1 0 0).set_value 7 1 2) ∧
    ((SparseMatrix.construct 2
          (((SparseMatrix.construct 2 3).set_value 1 0 0).set_value 7 1 2).columns).add
        (((SparseMatrix.construct 2 3).set_value 1 0 0).set_value 7 1 2)).head =
      (((SparseMatrix.construct 2 3).set_value 1 0 0).set_value 7 1 2).head ∧
    ((SparseMatrix.construct 2
          (((SparseMatrix.construct 2 3).set_value 1 0 0).set_value 7 1 2).columns).add
        (((SparseMatrix.construct 2 3).set_value 1 0 0).set_value 7 1 2)).render_sparse =
      (((SparseMatrix.construct 2 3).set_value 1 0 0).set_value 7 1 2).render_sparse :=
  add_fresh_identity (((SparseMatrix.construct 2 3).set_value 1 0 0).set_value 7 1 2) 2 3
    (Reachable.set_value _ 7 1 2
      (Reachable.set_value _ 1 0 0 (Reachable.construct 2 3) (by decide)) (by decide))

end SparseMatrixCpp
